import Mathlib

/-!
Verification of the response segmenter and file extractor of the cf_ai
repository: the functions `extractCodeBlocks`, `extractConfig` and
`preserveOrderedContent` that turn one raw LLM answer into an ordered list
of code artifacts, a reconstructed explanation and an optional config text.

Strings are modelled as `List Char`; the JavaScript regular expressions of
the source are modelled by hand-written backtracking matchers that follow
the engine's greedy/lazy and leftmost-first semantics for the concrete
patterns that appear in the source.
-/

namespace CfAi

/-- The backtick character, written by code so that the fence marker can be
built explicitly. -/
def btick : Char := Char.ofNat 96

/-- The fence marker: three backticks. -/
def ticks : List Char := [btick, btick, btick]

/-- JavaScript `\w`: ASCII letters, digits and underscore. -/
def isWordChar (c : Char) : Bool :=
  (('a' ≤ c && c ≤ 'z') || ('A' ≤ c && c ≤ 'Z') || ('0' ≤ c && c ≤ '9') || c = '_')

/-- JavaScript `\s` and the character class trimmed by `String.prototype.trim`:
ASCII whitespace plus the Unicode space separators, NBSP, BOM and the line
separators. -/
def isJsSpace (c : Char) : Bool :=
  c = ' ' || c = '\t' || c = '\n' || c = '\r' ||
  c = Char.ofNat 11 || c = Char.ofNat 12 ||
  c = Char.ofNat 0xa0 || c = Char.ofNat 0x1680 ||
  (Char.ofNat 0x2000 ≤ c && c ≤ Char.ofNat 0x200a) ||
  c = Char.ofNat 0x2028 || c = Char.ofNat 0x2029 ||
  c = Char.ofNat 0x202f || c = Char.ofNat 0x205f ||
  c = Char.ofNat 0x3000 || c = Char.ofNat 0xfeff

/-- JavaScript `String.prototype.trim`. -/
def jsTrim (s : List Char) : List Char :=
  ((s.dropWhile isJsSpace).reverse.dropWhile isJsSpace).reverse

/-- Case-insensitive prefix test (ASCII case folding, as the `i` flag of the
source's regexes). -/
def isPrefCI : List Char → List Char → Bool
  | [], _ => true
  | _ :: _, [] => false
  | p :: ps, c :: cs => (p.toLower = c.toLower) && isPrefCI ps cs

/-- Case-insensitive substring test (`String.prototype.includes` after
`toLowerCase`, with a lowercase needle). -/
def containsCI (pat : List Char) : List Char → Bool
  | [] => isPrefCI pat []
  | c :: rest => isPrefCI pat (c :: rest) || containsCI pat rest

/-- `text.includes("\x60\x60\x60")`: does the fence marker occur anywhere? -/
def hasTicks : List Char → Bool
  | [] => false
  | c :: rest => ticks.isPrefixOf (c :: rest) || hasTicks rest

/-! ## The fence matcher

The source regex is

  &#96;&#96;&#96;(\w+)?\s*(?:filename="([^"]+)")?\n([\s\S]*?)&#96;&#96;&#96;

applied with the `g` flag in an `exec` loop. The matchers below return the
captures together with the number of characters consumed, relative to their
own argument. -/

/-- Lazy `([\s\S]*?)` followed by the closing fence: the body up to the first
occurrence of the marker, together with the number of characters consumed
(body plus the three closing backticks); `none` when no marker follows. -/
def findClose : List Char → Option (List Char × Nat)
  | [] => none
  | c :: rest =>
    if ticks.isPrefixOf (c :: rest) then some ([], 3)
    else
      match findClose rest with
      | some (body, n) => some (c :: body, n + 1)
      | none => none

/-- The literal `filename="` that opens the attribute. -/
def fnameLit : List Char := ("filename=" ++ "\"").toList

/-- The optional group `(?:filename="([^"]+)")?` when it participates:
the literal, one or more non-quote characters, the closing quote. Returns the
capture and the consumed length. -/
def matchFname (s : List Char) : Option (List Char × Nat) :=
  if fnameLit.isPrefixOf s then
    let t := s.drop fnameLit.length
    let f := t.takeWhile (fun c => c ≠ '"')
    if f.isEmpty then none
    else if (t.drop f.length).head? = some '"' then
      some (f, fnameLit.length + f.length + 1)
    else none
  else none

/-- One attempt at a fixed position after `\s*` backtracking: optional
filename group (tried present-first, as the engine does), the literal `\n`,
then the lazy body up to the closing marker. Returns (filename capture, body
capture, consumed length). -/
def tryAtJ (s : List Char) : Option (Option (List Char) × List Char × Nat) :=
  match matchFname s with
  | some (f, fl) =>
    if (s.drop fl).head? = some '\n' then
      match findClose (s.drop (fl + 1)) with
      | some (body, n) => some (some f, body, fl + 1 + n)
      | none => none
    else none
  | none =>
    if s.head? = some '\n' then
      match findClose (s.drop 1) with
      | some (body, n) => some (none, body, 1 + n)
      | none => none
    else none

/-- Greedy `\s*` backtracking: try consuming `j` whitespace characters for
`j` from the maximal run down to zero. -/
def tryJs (s : List Char) : Nat → Option (Option (List Char) × List Char × Nat)
  | 0 => tryAtJ s
  | j + 1 =>
    match tryAtJ (s.drop (j + 1)) with
    | some (f, body, n) => some (f, body, j + 1 + n)
    | none => tryJs s j

/-- `\s*` then the rest of the pattern, starting from the maximal whitespace
run. -/
def matchSpacesThen (s : List Char) : Option (Option (List Char) × List Char × Nat) :=
  tryJs s ((s.takeWhile isJsSpace).length)

/-- Greedy `(\w+)?` backtracking: try a language capture of `k` word
characters for `k` from the maximal run down to one, then the group absent.
Returns (language capture, filename capture, body capture, consumed). -/
def tryKs (s : List Char) : Nat → Option (Option (List Char) × Option (List Char) × List Char × Nat)
  | 0 =>
    match matchSpacesThen s with
    | some (f, body, n) => some (none, f, body, n)
    | none => none
  | k + 1 =>
    match matchSpacesThen (s.drop (k + 1)) with
    | some (f, body, n) => some (some (s.take (k + 1)), f, body, k + 1 + n)
    | none => tryKs s k

/-- Match the part of the fence pattern after the opening marker. -/
def matchOpen (s : List Char) : Option (Option (List Char) × Option (List Char) × List Char × Nat) :=
  tryKs s ((s.takeWhile isWordChar).length)

/-- One raw regex match of the fence pattern: start index, captures, and the
length of the whole match. -/
structure RawMatch where
  idx : Nat
  lang : Option (List Char)
  fname : Option (List Char)
  body : List Char
  len : Nat
deriving Repr, DecidableEq

/-- The `exec` loop: scan left to right, attempting the pattern at each
index at or after the previous match's end (`lastIndex`). `skip` counts the
characters of the previous match still to be passed over; a new attempt is
made only when it is zero. -/
def scanGo : List Char → Nat → Nat → List RawMatch
  | [], _, _ => []
  | _ :: rest, i, skip + 1 => scanGo rest (i + 1) skip
  | c :: rest, i, 0 =>
    if ticks.isPrefixOf (c :: rest) then
      match matchOpen (rest.drop 2) with
      | some (lg, f, body, n) =>
        ⟨i, lg, f, body, 3 + n⟩ :: scanGo rest (i + 1) (2 + n)
      | none => scanGo rest (i + 1) 0
    else scanGo rest (i + 1) 0

/-- All matches of the fence pattern over a text. -/
def scanFences (text : List Char) : List RawMatch :=
  scanGo text 0 0

/-! ## Filename inference

Source lines 345-377: when a fence carries no `filename=` attribute, the
text before the block (`text.substring(0, match.index)`) is searched with
four patterns in order, then the wrangler/toml rule, then defaults by
language. -/

/-- The recognized extensions, in the alternation order of the source's
regexes: `(ts|js|json|toml|md|txt)`. -/
def extList : List (List Char) :=
  ["ts".toList, "js".toList, "json".toList, "toml".toList, "md".toList, "txt".toList]

/-- The file-path character class `[a-zA-Z0-9_\-\.\/]` of patterns 2-4. -/
def isFnameChar (c : Char) : Bool :=
  isWordChar c || c = '-' || c = '.' || c = '/'

/-- The class `[^\*\n]` of the bold pattern. -/
def isBoldChar (c : Char) : Bool :=
  c ≠ '*' && c ≠ '\n'

/-- Try the extension alternation (case-insensitively) at `s`, requiring the
terminator predicate to hold just after it; returns the consumed length. -/
def extAt (term : List Char → Bool) : List (List Char) → List Char → Option Nat
  | [], _ => none
  | e :: es, s =>
    if isPrefCI e s && term (s.drop e.length) then some e.length
    else extAt term es s

/-- Backtracking for `[class]+\.(ts|…)` followed by a terminator: with the
class run having maximal length `m`, try taking `k` class characters for `k`
from `m` down to one, then a literal dot, the extension alternation, and the
terminator. Returns the capture (as written in the input). -/
def runMatchK (term : List Char → Bool) (s : List Char) : Nat → Option (List Char)
  | 0 => none
  | k + 1 =>
    match s.drop (k + 1) with
    | '.' :: r2 =>
      (match extAt term extList r2 with
       | some el => some (s.take (k + 1) ++ '.' :: r2.take el)
       | none => runMatchK term s k)
    | _ => runMatchK term s k

/-- `[class]+\.(ts|…)` plus terminator, anchored at the start of `s`. -/
def runMatch (cls : Char → Bool) (term : List Char → Bool) (s : List Char) : Option (List Char) :=
  runMatchK term s ((s.takeWhile cls).length)

/-- Pattern 1, anchored: `\*\*([^\*\n]+\.(ts|js|json|toml|md|txt))\*\*`. -/
def boldAt (s : List Char) : Option (List Char) :=
  match s with
  | '*' :: '*' :: r => runMatch isBoldChar (fun t => ('*' :: '*' :: ([] : List Char)).isPrefixOf t) r
  | _ => none

/-- Pattern 2, anchored: `([a-zA-Z0-9_\-\.\/]+\.(ts|…)):`. -/
def colonAt (s : List Char) : Option (List Char) :=
  runMatch isFnameChar (fun t => match t with | ':' :: _ => true | _ => false) s

/-- A literal alternation (case-insensitive), one-or-more characters of a
class, then the file-name pattern: the common shape of patterns 3 and 4. The
class run is taken maximally; a shorter run cannot succeed because the
file-name class is disjoint from both separator classes. -/
def litThenFname (cls : Char → Bool) : List (List Char) → List Char → Option (List Char)
  | [], _ => none
  | v :: vs, s =>
    if isPrefCI v s then
      let r := s.drop v.length
      let sp := (r.takeWhile cls).length
      if sp = 0 then litThenFname cls vs s
      else
        match runMatch isFnameChar (fun _ => true) (r.drop sp) with
        | some f => some f
        | none => litThenFname cls vs s
    else litThenFname cls vs s

/-- The verbs of pattern 3: `(?:create|add|generate|write|save)`. -/
def verbList : List (List Char) :=
  ["create".toList, "add".toList, "generate".toList, "write".toList, "save".toList]

/-- The labels of pattern 4: `(?:file|file name|filename)`. -/
def labelList : List (List Char) :=
  ["file".toList, "file name".toList, "filename".toList]

/-- Pattern 3, anchored: `(?:create|add|generate|write|save)\s+(…\.(ts|…))`. -/
def verbAt (s : List Char) : Option (List Char) :=
  litThenFname isJsSpace verbList s

/-- Pattern 4, anchored: `(?:file|file name|filename)[\s:]+(…\.(ts|…))`. -/
def labelAt (s : List Char) : Option (List Char) :=
  litThenFname (fun c => isJsSpace c || c = ':') labelList s

/-- Leftmost-first search: try an anchored matcher at every position, in
order, as `String.prototype.match` with a non-global regex does. -/
def searchAux (f : List Char → Option (List Char)) : List Char → Option (List Char)
  | [] => f []
  | c :: rest =>
    match f (c :: rest) with
    | some r => some r
    | none => searchAux f rest

/-- The default language `"typescript"`. -/
def defaultLang : List Char := "typescript".toList

/-- The canonical entry-point filename. -/
def idxTsName : List Char := "src/index.ts".toList

/-- The configuration keyword `wrangler.toml`. -/
def kwConfig : List Char := "wrangler.toml".toList

/-- Filename inference: the four patterns in priority order over the text
preceding the fence, then the wrangler/toml rule, then the per-language
defaults (source lines 349-376). -/
def inferFilename (beforeBlock : List Char) (language : List Char) : List Char :=
  match searchAux boldAt beforeBlock with
  | some f => f
  | none =>
    match searchAux colonAt beforeBlock with
    | some f => f
    | none =>
      match searchAux verbAt beforeBlock with
      | some f => f
      | none =>
        match searchAux labelAt beforeBlock with
        | some f => f
        | none =>
          if containsCI ("wrangler".toList) beforeBlock || language = "toml".toList then
            kwConfig
          else if language = "typescript".toList || language = "ts".toList then
            idxTsName
          else if language = "json".toList then
            "package.json".toList
          else []

/-! ## extractCodeBlocks -/

/-- One extracted code unit (the element type of the source's `blocks`
array): `{ filename, code, language, order }`. -/
structure CodeBlock where
  filename : List Char
  code : List Char
  language : List Char
  order : Nat
deriving Repr, DecidableEq

/-- Build one block from a raw match (source lines 342-384): default the
language, take the attribute filename if present (and non-empty, as the
truthiness test does), otherwise infer from the preceding text; trim the
body. -/
def mkBlock (text : List Char) (m : RawMatch) (ord : Nat) : CodeBlock :=
  let language := m.lang.getD defaultLang
  let f0 := m.fname.getD []
  let filename := if f0.isEmpty then inferFilename (text.take m.idx) language else f0
  ⟨filename, jsTrim m.body, language, ord⟩

/-- The `while` loop's accumulation with the mutable `order` counter. -/
def blocksLoop (text : List Char) : List RawMatch → Nat → List CodeBlock
  | [], _ => []
  | m :: ms, ord => mkBlock text m ord :: blocksLoop text ms (ord + 1)

/-- The fallback regex `/&#96;&#96;&#96;[\s\S]*?&#96;&#96;&#96;/` (lazy): the span from the first
marker occurrence to the end of the next one. -/
def fallbackSpan : List Char → Option (List Char)
  | [] => none
  | c :: rest =>
    if ticks.isPrefixOf (c :: rest) then
      match findClose ((c :: rest).drop 3) with
      | some (_, n) => some ((c :: rest).take (3 + n))
      | none => fallbackSpan rest
    else fallbackSpan rest

/-- Global replace of `/&#96;&#96;&#96;\w*\n?/`: at each marker occurrence drop the
three backticks, the maximal word run and one following newline, then
continue after; keep other characters. `skip` counts characters of the
current match still to drop. -/
def stripTickLang : List Char → Nat → List Char
  | [], _ => []
  | _ :: rest, skip + 1 => stripTickLang rest skip
  | c :: rest, 0 =>
    if ticks.isPrefixOf (c :: rest) then
      let r := rest.drop 2
      let w := (r.takeWhile isWordChar).length
      let nl := if (r.drop w).head? = some '\n' then 1 else 0
      stripTickLang rest (2 + w + nl)
    else c :: stripTickLang rest 0

/-- Global replace of `/&#96;&#96;&#96;/` by the empty string. -/
def removeTicks : List Char → Nat → List Char
  | [], _ => []
  | _ :: rest, skip + 1 => removeTicks rest skip
  | c :: rest, 0 =>
    if ticks.isPrefixOf (c :: rest) then removeTicks rest 2
    else c :: removeTicks rest 0

/-- The fallback block's code: strip marker-plus-word-plus-newline tokens,
then bare markers, then trim (source line 394). -/
def fallbackCode (span : List Char) : List Char :=
  jsTrim (removeTicks (stripTickLang span 0) 0)

/-- The part of `extractCodeBlocks` after the scan: the block list, or the
fallback artifact when the scan found nothing but a marker occurs. -/
def blocksFromScan (text : List Char) (ms : List RawMatch) : List CodeBlock :=
  let blocks := blocksLoop text ms 0
  if blocks.isEmpty && hasTicks text then
    match fallbackSpan text with
    | some span => [⟨idxTsName, fallbackCode span, defaultLang, 0⟩]
    | none => []
  else blocks

/-- `extractCodeBlocks` (source lines 335-401). -/
def extractCodeBlocks (text : List Char) : List CodeBlock :=
  blocksFromScan text (scanFences text)

/-! ## extractConfig -/

/-- The anchored config pattern `wrangler\.toml[\s\S]*?&#96;&#96;&#96;[\s\S]*?&#96;&#96;&#96;`
(case-insensitive, both gaps lazy): the keyword, then up to the end of the
first marker after it, then up to the end of the next one. Returns the whole
match. -/
def configMatchAt (s : List Char) : Option (List Char) :=
  if isPrefCI kwConfig s then
    let r := s.drop kwConfig.length
    match findClose r with
    | some (_, n1) =>
      match findClose (r.drop n1) with
      | some (_, n2) => some (s.take (kwConfig.length + n1 + n2))
      | none => none
    | none => none
  else none

/-- Non-global replace of `/wrangler\.toml[\s\S]*?&#96;&#96;&#96;/i` by the empty
string: delete from the leftmost keyword occurrence that is followed by a
marker, through the end of that marker; leave the rest untouched. -/
def stripKwToTick : List Char → List Char
  | [] => []
  | c :: rest =>
    if isPrefCI kwConfig (c :: rest) then
      match findClose ((c :: rest).drop kwConfig.length) with
      | some (_, n) => (c :: rest).drop (kwConfig.length + n)
      | none => c :: stripKwToTick rest
    else c :: stripKwToTick rest

/-- `extractConfig` (source lines 403-409). -/
def extractConfig (text : List Char) : Option (List Char) :=
  match searchAux configMatchAt text with
  | some m => some (jsTrim (removeTicks (stripKwToTick m) 0))
  | none => none

/-! ## preserveOrderedContent -/

/-- A segment of the reconstruction: a trimmed prose run, or a reference to
a code block by its position in the blocks array. -/
inductive Part where
  | text : List Char → Part
  | code : Nat → Part
deriving Repr, DecidableEq

/-- The first loop of `preserveOrderedContent` (source lines 430-454):
re-scan the text, keep the trimmed text before each match when non-empty,
reference blocks by a `codeIndex` that only advances while it is below the
number of blocks, then keep the trimmed trailing text when non-empty. -/
def partsLoop (text : List Char) (nblocks : Nat) :
    List RawMatch → Nat → Nat → List Part
  | [], lastIndex, _ =>
    if lastIndex < text.length then
      let remaining := jsTrim (text.drop lastIndex)
      if remaining.isEmpty then [] else [Part.text remaining]
    else []
  | m :: ms, lastIndex, codeIndex =>
    let pre :=
      if lastIndex < m.idx then
        let tb := jsTrim ((text.take m.idx).drop lastIndex)
        if tb.isEmpty then ([] : List Part) else [Part.text tb]
      else []
    if codeIndex < nblocks then
      pre ++ Part.code codeIndex :: partsLoop text nblocks ms (m.idx + m.len) (codeIndex + 1)
    else
      pre ++ partsLoop text nblocks ms (m.idx + m.len) codeIndex

/-- The separator inserted after every rendered part but the last. -/
def sep2 : List Char := ['\n', '\n']

/-- The optional `**filename**` header of a rendered code block (source
lines 471-475): present only when the filename is non-empty and is neither
the placeholder nor the canonical entry point. -/
def headerOf (b : CodeBlock) : List Char :=
  let filename := if b.filename.isEmpty then "File".toList else b.filename
  if ¬ filename.isEmpty && filename ≠ "File".toList && filename ≠ idxTsName then
    '*' :: '*' :: (filename ++ '*' :: '*' :: sep2)
  else []

/-- Render one part (source lines 458-481): prose verbatim; a code reference
as an optional `**filename**` header followed by a rebuilt fence; a dangling
reference renders as nothing. -/
def renderPart (blocks : List CodeBlock) (p : Part) (isLast : Bool) : List Char :=
  match p with
  | Part.text s => s ++ (if isLast then [] else sep2)
  | Part.code o =>
    match blocks.get? o with
    | some b =>
      headerOf b ++ ticks ++ b.language ++ '\n' :: (b.code ++ '\n' :: ticks) ++
        (if isLast then [] else sep2)
    | none => []

/-- Serialize the parts in order. -/
def renderLoop (blocks : List CodeBlock) : List Part → List Char
  | [] => []
  | [p] => renderPart blocks p true
  | p :: ps => renderPart blocks p false ++ renderLoop blocks ps

/-- The part of `preserveOrderedContent` after the re-scan. -/
def explFromScan (text : List Char) (codeBlocks : List CodeBlock) (ms : List RawMatch) : List Char :=
  if codeBlocks.isEmpty then jsTrim text
  else jsTrim (renderLoop codeBlocks (partsLoop text codeBlocks.length ms 0 0))

/-- `preserveOrderedContent` (source lines 418-485). -/
def preserveOrderedContent (text : List Char) (codeBlocks : List CodeBlock) : List Char :=
  explFromScan text codeBlocks (scanFences text)

/-! ## The combined extraction (caller, source lines 271-275) -/

/-- The output of one extraction call. -/
structure ExtractionResult where
  artifacts : List CodeBlock
  explanation : List Char
  configText : Option (List Char)
deriving Repr, DecidableEq

/-- `extract`: code blocks, ordered explanation, config text. -/
def extract (text : List Char) : ExtractionResult :=
  let codeBlocks := extractCodeBlocks text
  ⟨codeBlocks, preserveOrderedContent text codeBlocks, extractConfig text⟩

/-! ## The `exec` while-loop with explicit fuel

The source drives both regex scans with `while ((match = regex.exec(text))
!== null)`, an unbounded loop whose progress comes from `lastIndex` moving
past each match. The model below is that loop literally: each iteration
matches at or after the cursor and advances it; the error value is the
loop's failure to terminate within the fuel. -/

/-- One-`exec`-per-iteration loop: `fuel` bounds the number of iterations;
`.error` is reached only if the fuel runs out. -/
def scanLoopE : Nat → List Char → Nat → Except Unit (List RawMatch)
  | 0, _, _ => Except.error ()
  | _ + 1, [], _ => Except.ok []
  | fuel + 1, c :: rest, i =>
    if ticks.isPrefixOf (c :: rest) then
      match matchOpen (rest.drop 2) with
      | some (lg, f, body, n) =>
        (scanLoopE fuel (rest.drop (2 + n)) (i + 3 + n)).map
          (fun ms => ⟨i, lg, f, body, 3 + n⟩ :: ms)
      | none => scanLoopE fuel rest (i + 1)
    else scanLoopE fuel rest (i + 1)

/-- `extract` with both scan loops run on fuel `text.length + 1`: the
shape of the source's control flow with its potentially non-terminating
loops made explicit. -/
def extractE (text : List Char) : Except Unit ExtractionResult := do
  let ms ← scanLoopE (text.length + 1) text 0
  let codeBlocks := blocksFromScan text ms
  let ms2 ← scanLoopE (text.length + 1) text 0
  let explanation := explFromScan text codeBlocks ms2
  pure ⟨codeBlocks, explanation, extractConfig text⟩

/-- The code references inside a parts list, in order. -/
def codeOrders (ps : List Part) : List Nat :=
  ps.filterMap (fun p => match p with | Part.code o => some o | Part.text _ => none)

/-- Index of the first marker occurrence. -/
def firstTickIdx : List Char → Option Nat
  | [] => none
  | c :: rest =>
    if ticks.isPrefixOf (c :: rest) then some 0
    else (firstTickIdx rest).map (fun j => j + 1)

/-- Modelled from the amended fallback description: take the first marker
occurrence that is followed, three or more characters later, by another
marker occurrence, and return the text from it through the end of that next
occurrence; nothing when no such pair exists. -/
def specFallbackSpan : List Char → Option (List Char)
  | [] => none
  | c :: rest =>
    if ticks.isPrefixOf (c :: rest) then
      match firstTickIdx ((c :: rest).drop 3) with
      | some j => some ((c :: rest).take (3 + j + 3))
      | none => specFallbackSpan rest
    else specFallbackSpan rest

/-- The body capture the scanner produces when it re-reads a rendered
fence around `code`: empty for empty code (the `\s*` backtracking eats the
first newline), otherwise the code followed by one newline. -/
def scannedBody (code : List Char) : List Char :=
  if code.isEmpty then [] else code ++ ['\n']

/-- Does the text contain a fence marker occurrence followed, at least
three characters later, by another marker occurrence? This is what the
config pattern needs after the keyword: an opening and a closing marker. -/
def hasTicksPair (s : List Char) : Bool :=
  match firstTickIdx s with
  | some j => hasTicks (s.drop (j + 3))
  | none => false

/-- The well-formedness conditions on one extracted block under which the
reconstruction round-trips: its code is marker-free, cannot be mistaken for
a filename attribute, and is trimmed; its filename is marker-free; and its
language is a non-empty word. -/
def goodB (b : CodeBlock) : Prop :=
  hasTicks b.code = false ∧ fnameLit.isPrefixOf b.code = false
    ∧ jsTrim b.code = b.code ∧ hasTicks b.filename = false
    ∧ b.language ≠ [] ∧ b.language.all isWordChar = true

/-! ## Basic lemmas about the scanner -/

/-- Skipping `s` characters is dropping them. -/
theorem scanGo_skip (cs : List Char) : ∀ i s, scanGo cs i s = scanGo (cs.drop s) (i + s) 0 := by
  induction cs with
  | nil => intro i s; simp [scanGo]
  | cons c rest ih =>
    intro i s
    cases s with
    | zero => simp
    | succ s' =>
      show scanGo rest (i + 1) s' = _
      rw [ih (i + 1) s']
      simp [List.drop_succ_cons]
      congr 1
      omega

/-- Fuel one beyond the text length suffices: the scan loop never errors. -/
theorem scanLoopE_ok : ∀ (fuel : Nat) (cs : List Char) (i : Nat), cs.length < fuel →
    scanLoopE fuel cs i = Except.ok (scanGo cs i 0) := by
  intro fuel
  induction fuel with
  | zero => intro cs i h; omega
  | succ fuel ih =>
    intro cs i h
    cases cs with
    | nil => simp [scanLoopE, scanGo]
    | cons c rest =>
      by_cases ht : ticks.isPrefixOf (c :: rest)
      · cases hm : matchOpen (rest.drop 2) with
        | some r =>
          obtain ⟨lg, f, body, n⟩ := r
          have hlen : (rest.drop (2 + n)).length < fuel := by
            have h2 : (rest.drop (2 + n)).length = rest.length - (2 + n) :=
              List.length_drop _ _
            simp at h
            omega
          simp only [scanLoopE, scanGo, ht, hm, if_true]
          rw [ih _ _ hlen, scanGo_skip rest (i + 1) (2 + n)]
          have harith : i + 1 + (2 + n) = i + 3 + n := by omega
          rw [harith]
          simp [Except.map]
        | none =>
          have hlen : rest.length < fuel := by simp at h; omega
          simp only [scanLoopE, scanGo, ht, hm, if_true]
          exact ih _ _ hlen
      · rw [Bool.not_eq_true] at ht
        have hlen : rest.length < fuel := by simp at h; omega
        simp only [scanLoopE, scanGo, ht, Bool.false_eq_true, if_false]
        exact ih _ _ hlen

/-! ## Lemmas about texts without any fence marker -/

/-- In a marker-free text no position starts with the marker. -/
theorem no_pref_of_tickfree {cs : List Char} (h : hasTicks cs = false) :
    ticks.isPrefixOf cs = false := by
  cases cs with
  | nil => decide
  | cons c rest =>
    simp only [hasTicks, Bool.or_eq_false_iff] at h
    exact h.1

/-- The tail of a marker-free text is marker-free. -/
theorem hasTicks_tail {c : Char} {rest : List Char} (h : hasTicks (c :: rest) = false) :
    hasTicks rest = false := by
  simp only [hasTicks, Bool.or_eq_false_iff] at h
  exact h.2

/-- Dropping characters preserves marker-freeness. -/
theorem hasTicks_drop {cs : List Char} (h : hasTicks cs = false) (n : Nat) :
    hasTicks (cs.drop n) = false := by
  induction cs generalizing n with
  | nil => simp [List.drop_nil]; cases n <;> simp [hasTicks]
  | cons c rest ih =>
    cases n with
    | zero => exact h
    | succ n' => exact ih (hasTicks_tail h) n'

/-- The scan of a marker-free text finds nothing. -/
theorem scanGo_of_tickfree {cs : List Char} (h : hasTicks cs = false) :
    ∀ i, scanGo cs i 0 = [] := by
  induction cs with
  | nil => intro i; simp [scanGo]
  | cons c rest ih =>
    intro i
    simp only [scanGo, no_pref_of_tickfree h, Bool.false_eq_true, if_false]
    exact ih (hasTicks_tail h) (i + 1)

/-- `findClose` fails on a marker-free text. -/
theorem findClose_of_tickfree {cs : List Char} (h : hasTicks cs = false) :
    findClose cs = none := by
  induction cs with
  | nil => rfl
  | cons c rest ih =>
    simp only [findClose, no_pref_of_tickfree h, Bool.false_eq_true, if_false]
    rw [ih (hasTicks_tail h)]

/-- The config pattern cannot match anywhere in a marker-free text. -/
theorem searchConfig_of_tickfree {cs : List Char} (h : hasTicks cs = false) :
    searchAux configMatchAt cs = none := by
  induction cs with
  | nil => decide
  | cons c rest ih =>
    simp only [searchAux]
    have hc : configMatchAt (c :: rest) = none := by
      unfold configMatchAt
      by_cases hk : isPrefCI kwConfig (c :: rest)
      · simp only [hk, if_true]
        rw [findClose_of_tickfree (hasTicks_drop h _)]
      · simp [hk]
    rw [hc]
    exact ih (hasTicks_tail h)

/-- C1: an input with no occurrence of the fence marker yields no
artifacts, the trimmed input as explanation, and no config text. -/
theorem c1_no_fence (text : List Char) (h : hasTicks text = false) :
    extract text = ⟨[], jsTrim text, none⟩ := by
  have hscan : scanFences text = [] := scanGo_of_tickfree h 0
  have hblocks : extractCodeBlocks text = [] := by
    unfold extractCodeBlocks blocksFromScan
    rw [hscan]
    simp [blocksLoop, h]
  have hconfig : extractConfig text = none := by
    unfold extractConfig
    rw [searchConfig_of_tickfree h]
  unfold extract
  rw [hblocks, hconfig]
  unfold preserveOrderedContent explFromScan
  simp

/-- Witness for C1 at a concrete marker-free input. -/
theorem c1_no_fence_witness :
    hasTicks ("hello world".toList) = false ∧
    extract ("hello world".toList) = ⟨[], "hello world".toList, none⟩ :=
  ⟨by decide, by rw [c1_no_fence _ (by decide)]; decide⟩

/-- C4: the source's scan loops always terminate within `length + 1`
iterations, so the fueled rendition of `extract` — whose error value is
exactly the unreachable non-termination branch — returns `ok` on every
input, including the empty string, all-whitespace strings and strings with
arbitrarily many or unmatched markers. -/
theorem c4_total (text : List Char) : extractE text = Except.ok (extract text) := by
  have h := scanLoopE_ok (text.length + 1) text 0 (by omega)
  simp only [extractE, h, extract, extractCodeBlocks, preserveOrderedContent, scanFences]
  rfl

/-! ## Ordering lemmas (C2) -/

/-- The `order` fields assigned by the block loop count up from `ord`. -/
theorem blocksLoop_order (text : List Char) :
    ∀ (ms : List RawMatch) (ord i : Nat) (hi : i < (blocksLoop text ms ord).length),
      ((blocksLoop text ms ord).get ⟨i, hi⟩).order = ord + i := by
  intro ms
  induction ms with
  | nil => intro ord i hi; simp [blocksLoop] at hi
  | cons m ms ih =>
    intro ord i hi
    cases i with
    | zero => simp [blocksLoop, mkBlock]
    | succ i' =>
      have hi' : i' < (blocksLoop text ms (ord + 1)).length := by
        simp [blocksLoop] at hi ⊢; omega
      show ((blocksLoop text ms (ord + 1)).get ⟨i', hi'⟩).order = ord + (i' + 1)
      rw [ih (ord + 1) i' hi']
      omega

/-- One block per match. -/
theorem blocksLoop_length (text : List Char) :
    ∀ (ms : List RawMatch) (ord : Nat), (blocksLoop text ms ord).length = ms.length := by
  intro ms
  induction ms with
  | nil => intro ord; rfl
  | cons m ms ih => intro ord; simp [blocksLoop, ih]

/-- When the scan found at least one fence, the blocks are exactly the
per-match loop's output. -/
theorem extractCodeBlocks_eq_loop (text : List Char) (hs : scanFences text ≠ []) :
    extractCodeBlocks text = blocksLoop text (scanFences text) 0 := by
  unfold extractCodeBlocks blocksFromScan
  cases hms : scanFences text with
  | nil => exact absurd hms hs
  | cons m ms => simp [blocksLoop]

/-- Every match the scan returns starts at or after the cursor. -/
theorem scanGo_idx_ge : ∀ (cs : List Char) (i s : Nat), ∀ m ∈ scanGo cs i s, i ≤ m.idx := by
  intro cs
  induction cs with
  | nil => intro i s m hm; simp [scanGo] at hm
  | cons c rest ih =>
    intro i s m hm
    cases s with
    | succ s' =>
      have := ih (i + 1) s' m hm
      omega
    | zero =>
      by_cases ht : ticks.isPrefixOf (c :: rest)
      · rw [show scanGo (c :: rest) i 0 =
            (match matchOpen (rest.drop 2) with
             | some (lg, f, body, n) =>
               ⟨i, lg, f, body, 3 + n⟩ :: scanGo rest (i + 1) (2 + n)
             | none => scanGo rest (i + 1) 0) by simp [scanGo, ht]] at hm
        cases hmo : matchOpen (rest.drop 2) with
        | some r =>
          obtain ⟨lg, f, body, n⟩ := r
          rw [hmo] at hm
          simp only [List.mem_cons] at hm
          cases hm with
          | inl h => rw [h]
          | inr h => have := ih (i + 1) (2 + n) m h; omega
        | none =>
          rw [hmo] at hm
          have := ih (i + 1) 0 m hm
          omega
      · rw [Bool.not_eq_true] at ht
        rw [show scanGo (c :: rest) i 0 = scanGo rest (i + 1) 0 by
          simp [scanGo, ht]] at hm
        have := ih (i + 1) 0 m hm
        omega

/-- The matches come back in strictly increasing start-offset order. -/
theorem scanGo_pairwise : ∀ (cs : List Char) (i s : Nat),
    (scanGo cs i s).Pairwise (fun a b => a.idx < b.idx) := by
  intro cs
  induction cs with
  | nil => intro i s; simp [scanGo]
  | cons c rest ih =>
    intro i s
    cases s with
    | succ s' => exact ih (i + 1) s'
    | zero =>
      by_cases ht : ticks.isPrefixOf (c :: rest)
      · rw [show scanGo (c :: rest) i 0 =
            (match matchOpen (rest.drop 2) with
             | some (lg, f, body, n) =>
               ⟨i, lg, f, body, 3 + n⟩ :: scanGo rest (i + 1) (2 + n)
             | none => scanGo rest (i + 1) 0) by simp [scanGo, ht]]
        cases hmo : matchOpen (rest.drop 2) with
        | some r =>
          obtain ⟨lg, f, body, n⟩ := r
          refine List.Pairwise.cons ?_ (ih (i + 1) (2 + n))
          intro m hm
          have := scanGo_idx_ge rest (i + 1) (2 + n) m hm
          simp only
          omega
        | none => exact ih (i + 1) 0
      · rw [Bool.not_eq_true] at ht
        rw [show scanGo (c :: rest) i 0 = scanGo rest (i + 1) 0 by simp [scanGo, ht]]
        exact ih (i + 1) 0

/-- The prose-or-nothing prefix contributed before a match has no code
references, so the code references of the parts list are the consecutive
`codeIndex` values. -/
theorem partsLoop_codeOrders (text : List Char) (n : Nat) :
    ∀ (ms : List RawMatch) (li ci : Nat),
      codeOrders (partsLoop text n ms li ci) = List.range' ci (min (n - ci) ms.length) := by
  intro ms
  induction ms with
  | nil =>
    intro li ci
    simp only [partsLoop, codeOrders]
    by_cases h1 : li < text.length
    · simp only [h1, if_true]
      by_cases h2 : (jsTrim (text.drop li)).isEmpty
      · simp [h2]
      · simp [h2]
    · simp [h1]
  | cons m ms ih =>
    intro li ci
    have hpre : ∀ ps : List Part,
        codeOrders ((if li < m.idx then
          (if (jsTrim ((text.take m.idx).drop li)).isEmpty then ([] : List Part)
           else [Part.text (jsTrim ((text.take m.idx).drop li))]) else []) ++ ps)
        = codeOrders ps := by
      intro ps
      by_cases h1 : li < m.idx
      · by_cases h2 : (jsTrim ((text.take m.idx).drop li)).isEmpty
        · simp [codeOrders, h1, h2]
        · simp [codeOrders, h1, h2]
      · simp [codeOrders, h1]
    by_cases hci : ci < n
    · simp only [partsLoop, hci, if_true]
      rw [hpre]
      simp only [codeOrders, List.filterMap_cons]
      rw [show List.filterMap
          (fun p => match p with | Part.code o => some o | Part.text _ => none)
          (partsLoop text n ms (m.idx + m.len) (ci + 1))
        = codeOrders (partsLoop text n ms (m.idx + m.len) (ci + 1)) from rfl]
      rw [ih (m.idx + m.len) (ci + 1)]
      have hmin : min (n - ci) ((m :: ms).length) = (min (n - (ci + 1)) ms.length) + 1 := by
        simp only [List.length_cons]
        omega
      rw [hmin, List.range'_succ]
    · simp only [partsLoop, hci, if_false]
      rw [hpre, ih (m.idx + m.len) ci]
      have h1 : min (n - ci) ms.length = 0 := by omega
      have h2 : min (n - ci) ((m :: ms).length) = 0 := by omega
      rw [h1, h2]

/-- C2: `order` values are contiguous from zero in list position; match
start offsets are strictly increasing; and the code segments of the
reconstruction reference the blocks in exactly the order `0, 1, …, N-1`. -/
theorem c2_ordering (text : List Char) (hs : scanFences text ≠ []) :
    (∀ i (hi : i < (extractCodeBlocks text).length),
        ((extractCodeBlocks text).get ⟨i, hi⟩).order = i)
    ∧ (scanFences text).Pairwise (fun a b => a.idx < b.idx)
    ∧ codeOrders (partsLoop text (extractCodeBlocks text).length (scanFences text) 0 0)
        = List.range (extractCodeBlocks text).length := by
  have heq := extractCodeBlocks_eq_loop text hs
  refine ⟨?_, scanGo_pairwise text 0 0, ?_⟩
  · intro i hi
    rw [List.get_of_eq heq]
    exact (blocksLoop_order text (scanFences text) 0 i _).trans (by omega)
  · rw [partsLoop_codeOrders text _ (scanFences text) 0 0]
    rw [heq, blocksLoop_length]
    rw [List.range_eq_range']
    congr 1
    omega

/-- Witness for C2 at an input with two fences. -/
theorem c2_ordering_witness :
    scanFences ("a\n```ts\nx\n```\nmid\n```js\ny\n```".toList) ≠ [] ∧
    ((∀ i (hi : i < (extractCodeBlocks "a\n```ts\nx\n```\nmid\n```js\ny\n```".toList).length),
        ((extractCodeBlocks "a\n```ts\nx\n```\nmid\n```js\ny\n```".toList).get ⟨i, hi⟩).order = i)
    ∧ (scanFences "a\n```ts\nx\n```\nmid\n```js\ny\n```".toList).Pairwise (fun a b => a.idx < b.idx)
    ∧ codeOrders (partsLoop "a\n```ts\nx\n```\nmid\n```js\ny\n```".toList
        (extractCodeBlocks "a\n```ts\nx\n```\nmid\n```js\ny\n```".toList).length
        (scanFences "a\n```ts\nx\n```\nmid\n```js\ny\n```".toList) 0 0)
        = List.range (extractCodeBlocks "a\n```ts\nx\n```\nmid\n```js\ny\n```".toList).length) :=
  ⟨by decide, c2_ordering _ (by decide)⟩

/-! ## Explicit filename attribute (C3) -/

/-- C3: when the single well-formed fence carries the explicit attribute
`filename="x.ts"`, the one artifact keeps exactly that filename with
sequence index 0 — no inference rule runs. -/
theorem c3_explicit_filename (text : List Char) (m : RawMatch)
    (hs : scanFences text = [m]) (hf : m.fname = some ("x.ts".toList)) :
    extractCodeBlocks text =
      [⟨"x.ts".toList, jsTrim m.body, m.lang.getD defaultLang, 0⟩] := by
  have hs' : scanFences text ≠ [] := by rw [hs]; simp
  rw [extractCodeBlocks_eq_loop text hs', hs]
  have hne : ("x.ts".toList).isEmpty = false := by decide
  simp only [blocksLoop, mkBlock, hf, Option.getD_some, hne, Bool.false_eq_true, if_false]

/-- Witness for C3 at a concrete fenced input with an explicit attribute. -/
theorem c3_explicit_filename_witness :
    scanFences ("```ts filename=\"x.ts\"\nlet a = 1\n```".toList)
      = [⟨0, some ("ts".toList), some ("x.ts".toList), "let a = 1\n".toList, 35⟩] ∧
    extractCodeBlocks ("```ts filename=\"x.ts\"\nlet a = 1\n```".toList)
      = [⟨"x.ts".toList,
          jsTrim ("let a = 1\n".toList),
          (some ("ts".toList)).getD defaultLang, 0⟩] :=
  ⟨by decide,
   c3_explicit_filename ("```ts filename=\"x.ts\"\nlet a = 1\n```".toList)
     ⟨0, some ("ts".toList), some ("x.ts".toList), "let a = 1\n".toList, 35⟩
     (by decide) (by decide)⟩

/-! ## Inference priority at the spec's concrete input (C8) -/

/-- C8: on `"Create config.toml\n&#96;&#96;&#96;toml\nname=\"x\"\n&#96;&#96;&#96;"` the artifact's
filename is resolved by the imperative-verb rule to `config.toml`; the two
higher-priority rules find nothing in the preceding text, and the verb rule
matches, so neither the toml-language nor the wrangler default applies. -/
theorem c8_verb_inference :
    extractCodeBlocks ("Create config.toml\n```toml\nname=\"x\"\n```".toList)
      = [⟨"config.toml".toList, "name=\"x\"".toList, "toml".toList, 0⟩]
    ∧ searchAux boldAt ("Create config.toml\n".toList) = none
    ∧ searchAux colonAt ("Create config.toml\n".toList) = none
    ∧ searchAux verbAt ("Create config.toml\n".toList) = some ("config.toml".toList) :=
  ⟨by decide, by decide, by decide, by decide⟩

/-! ## The malformed-fence fallback (C5) -/

/-- Counterexample to C5 as stated. The input has zero well-formed fences
(no newline, so the scan finds nothing) and four marker occurrences. The
claim asserts the single fallback artifact has an empty filename and content
spanning from the first to the LAST marker (which after stripping and
trimming would read `a-b  mid  c`); the code instead assigns the filename
`src/index.ts` and (lazily) spans only to the NEXT marker, yielding `a-b`. -/
theorem c5_cex :
    scanFences ("``` a-b ``` mid ``` c ```".toList) = []
    ∧ hasTicks ("``` a-b ``` mid ``` c ```".toList) = true
    ∧ extractCodeBlocks ("``` a-b ``` mid ``` c ```".toList)
        = [⟨"src/index.ts".toList, "a-b".toList, "typescript".toList, 0⟩]
    ∧ "src/index.ts".toList ≠ ([] : List Char)
    ∧ "a-b".toList ≠ "a-b  mid  c".toList :=
  ⟨by decide, by decide, by decide, by decide, by decide⟩

/-- The lazy-close search is the first-occurrence search. -/
theorem findClose_eq_firstTickIdx : ∀ s : List Char,
    findClose s = (firstTickIdx s).map (fun j => (s.take j, j + 3)) := by
  intro s
  induction s with
  | nil => rfl
  | cons c rest ih =>
    by_cases ht : ticks.isPrefixOf (c :: rest)
    · simp [findClose, firstTickIdx, ht]
    · rw [Bool.not_eq_true] at ht
      simp only [findClose, firstTickIdx, ht, Bool.false_eq_true, if_false, ih]
      cases hj : firstTickIdx rest with
      | none => rfl
      | some j => simp [List.take_succ_cons]

/-- The implementation's fallback span is the amended description's span. -/
theorem fallbackSpan_eq_spec : ∀ text : List Char, fallbackSpan text = specFallbackSpan text := by
  intro text
  induction text with
  | nil => rfl
  | cons c rest ih =>
    by_cases ht : ticks.isPrefixOf (c :: rest)
    · simp only [fallbackSpan, specFallbackSpan, ht, if_true,
        findClose_eq_firstTickIdx]
      cases hj : firstTickIdx ((c :: rest).drop 3) with
      | none => simp [ih]
      | some j =>
        show some ((c :: rest).take (3 + (j + 3))) = some ((c :: rest).take (3 + j + 3))
        rw [show 3 + (j + 3) = 3 + j + 3 from by omega]
    · rw [Bool.not_eq_true] at ht
      simp only [fallbackSpan, specFallbackSpan, ht, Bool.false_eq_true, if_false, ih]

/-- C5 amended: when the scan yields no artifact but a marker occurs, the
code emits at most one artifact: exactly one — with filename `src/index.ts`
(the canonical entry point, not an empty filename), default language and
sequence index 0, whose content is the span from the first marker to the end
of the NEXT marker occurrence, marker tokens stripped and trimmed — when
such a second occurrence exists, and none otherwise. -/
theorem c5_amended (text : List Char) (hscan : scanFences text = [])
    (ht : hasTicks text = true) :
    extractCodeBlocks text =
      match specFallbackSpan text with
      | some span => [⟨idxTsName, fallbackCode span, defaultLang, 0⟩]
      | none => [] := by
  unfold extractCodeBlocks blocksFromScan
  rw [hscan]
  simp only [blocksLoop, List.isEmpty_nil, ht, Bool.and_self, if_true]
  rw [fallbackSpan_eq_spec]

/-- Witness for the amended C5 at a concrete malformed input. -/
theorem c5_amended_witness :
    scanFences ("```x y``` after".toList) = []
    ∧ hasTicks ("```x y``` after".toList) = true
    ∧ extractCodeBlocks ("```x y``` after".toList) =
        match specFallbackSpan ("```x y``` after".toList) with
        | some span => [⟨idxTsName, fallbackCode span, defaultLang, 0⟩]
        | none => [] :=
  ⟨by decide, by decide, c5_amended _ (by decide) (by decide)⟩

/-! ## Config extraction (C6) -/

/-- Counterexample to C6 as stated. The labelled block is
`wrangler.toml` + newline + a `toml`-tagged fence around `name = 1`. The
claim asserts the opening marker's language tag is not part of the returned
content (which would give `name = 1`); the code strips only through the
first marker itself, so the tag stays: the result is `toml\nname = 1`. -/
theorem c6_cex :
    extractConfig ("wrangler.toml\n```toml\nname = 1\n```".toList)
      = some ("toml\nname = 1".toList)
    ∧ "toml\nname = 1".toList ≠ "name = 1".toList :=
  ⟨by decide, by decide⟩

/-- Every list is a case-insensitive prefix of itself followed by anything. -/
theorem isPrefCI_self_append : ∀ (p z : List Char), isPrefCI p (p ++ z) = true := by
  intro p
  induction p with
  | nil => intro z; rfl
  | cons x p ih => intro z; simp [isPrefCI, ih]

/-- The lazy close over a backtick-free block body finds exactly the marker
that follows it. -/
theorem findClose_append (z : List Char) :
    ∀ b : List Char, b.all (fun x => x ≠ btick) = true →
      findClose (b ++ (ticks ++ z)) = some (b, b.length + 3) := by
  intro b
  induction b with
  | nil =>
    intro _
    show findClose (ticks ++ z) = some ([], 3)
    simp [findClose, ticks, List.isPrefixOf]
  | cons x b ih =>
    intro hb
    simp only [List.all_cons, Bool.and_eq_true, decide_eq_true_eq] at hb
    have hpr : ticks.isPrefixOf (x :: (b ++ (ticks ++ z))) = false := by
      simp [ticks, List.isPrefixOf]
      intro h
      exact absurd h.symm hb.1
    have hlen : b.length + 3 + 1 = (x :: b).length + 3 := by
      rw [List.length_cons]
    rw [show (x :: b) ++ (ticks ++ z) = x :: (b ++ (ticks ++ z)) from rfl]
    simp only [findClose, hpr, Bool.false_eq_true, if_false]
    rw [ih hb.2]
    show some (x :: b, b.length + 3 + 1) = some (x :: b, (x :: b).length + 3)
    rw [hlen]

/-- Removing markers from a backtick-free text followed by one marker gives
the text back. -/
theorem removeTicks_append_ticks : ∀ c : List Char, c.all (fun x => x ≠ btick) = true →
    removeTicks (c ++ ticks) 0 = c := by
  intro c
  induction c with
  | nil => intro _; decide
  | cons x c ih =>
    intro hc
    simp only [List.all_cons, Bool.and_eq_true, decide_eq_true_eq] at hc
    have hpr : ticks.isPrefixOf (x :: (c ++ ticks)) = false := by
      simp [ticks, List.isPrefixOf]
      intro h
      exact absurd h.symm hc.1
    rw [show (x :: c) ++ ticks = x :: (c ++ ticks) from rfl]
    simp only [removeTicks, hpr, Bool.false_eq_true, if_false]
    rw [ih hc.2]

/-- The config search skips any leading region in which no
(case-insensitive) keyword occurrence starts. -/
theorem searchAux_skip_no_kw : ∀ (a R : List Char),
    (∀ i < a.length, isPrefCI kwConfig ((a ++ R).drop i) = false) →
    searchAux configMatchAt (a ++ R) = searchAux configMatchAt R := by
  intro a
  induction a with
  | nil => intro R _; rfl
  | cons x a' ih =>
    intro R ha
    have h0 : isPrefCI kwConfig (x :: (a' ++ R)) = false := ha 0 (by simp)
    have hnone : configMatchAt (x :: (a' ++ R)) = none := by
      unfold configMatchAt
      simp [h0]
    rw [show (x :: a') ++ R = x :: (a' ++ R) from rfl]
    simp only [searchAux, hnone]
    refine ih R ?_
    intro i hi
    exact ha (i + 1) (by simp only [List.length_cons]; omega)

/-- If the anchored matcher succeeds on the whole text, the leftmost search
returns that result. -/
theorem searchAux_of_head {f : List Char → Option (List Char)} {s r : List Char}
    (h : f s = some r) : searchAux f s = some r := by
  cases s with
  | nil => rw [show searchAux f [] = f [] from rfl, h]
  | cons c rest => simp only [searchAux, h]

/-- Unfolding `stripKwToTick` at a text that starts with the keyword and has
a marker after it. -/
theorem stripKwToTick_head {s : List Char} {p : List Char} {n : Nat}
    (hk : isPrefCI kwConfig s = true)
    (hf : findClose (s.drop kwConfig.length) = some (p, n)) :
    stripKwToTick s = s.drop (kwConfig.length + n) := by
  cases s with
  | nil => exact absurd hk (by decide)
  | cons c rest => simp only [stripKwToTick, hk, if_true, hf]

/-- The positive branch of the amended C6: for a text containing the first
(case-insensitive) keyword occurrence followed by a fenced region,
`configText` is the trimmed text standing between the two fence markers â
*including* the opening marker’s language tag, since the replacement strips
only up to and including the first marker itself. -/
theorem extractConfig_labelled (a b c d : List Char)
    (ha : ∀ i < a.length, isPrefCI kwConfig
        ((a ++ (kwConfig ++ (b ++ (ticks ++ (c ++ (ticks ++ d)))))).drop i) = false)
    (hb : b.all (fun x => x ≠ btick) = true)
    (hc : c.all (fun x => x ≠ btick) = true) :
    extractConfig (a ++ (kwConfig ++ (b ++ (ticks ++ (c ++ (ticks ++ d))))))
      = some (jsTrim c) := by
  have hkwlen : kwConfig.length = 13 := by decide
  have hdrop1 : (kwConfig ++ (b ++ (ticks ++ (c ++ (ticks ++ d))))).drop kwConfig.length
      = b ++ (ticks ++ (c ++ (ticks ++ d))) := List.drop_left _ _
  have hfc1 : findClose (b ++ (ticks ++ (c ++ (ticks ++ d)))) = some (b, b.length + 3) :=
    findClose_append _ b hb
  have hdrop2 : (b ++ (ticks ++ (c ++ (ticks ++ d)))).drop (b.length + 3)
      = c ++ (ticks ++ d) := by
    rw [show b ++ (ticks ++ (c ++ (ticks ++ d))) = (b ++ ticks) ++ (c ++ (ticks ++ d)) by
      simp [List.append_assoc]]
    exact List.drop_left' (by simp [ticks])
  have hfc2 : findClose (c ++ (ticks ++ d)) = some (c, c.length + 3) :=
    findClose_append _ c hc
  have htake : (kwConfig ++ (b ++ (ticks ++ (c ++ (ticks ++ d))))).take
      (kwConfig.length + (b.length + 3) + (c.length + 3))
      = kwConfig ++ (b ++ (ticks ++ (c ++ ticks))) := by
    rw [show kwConfig ++ (b ++ (ticks ++ (c ++ (ticks ++ d))))
        = (kwConfig ++ (b ++ (ticks ++ (c ++ ticks)))) ++ d by simp [List.append_assoc]]
    refine List.take_left' ?_
    simp [ticks, hkwlen]
    omega
  have hcm : configMatchAt (kwConfig ++ (b ++ (ticks ++ (c ++ (ticks ++ d)))))
      = some (kwConfig ++ (b ++ (ticks ++ (c ++ ticks)))) := by
    unfold configMatchAt
    rw [isPrefCI_self_append]
    simp only [if_true, hdrop1, hfc1, hdrop2, hfc2, htake]
  unfold extractConfig
  rw [searchAux_skip_no_kw a _ ha, searchAux_of_head hcm]
  have hstrip : stripKwToTick (kwConfig ++ (b ++ (ticks ++ (c ++ ticks))))
      = c ++ ticks := by
    have hd : (kwConfig ++ (b ++ (ticks ++ (c ++ ticks)))).drop kwConfig.length
        = b ++ (ticks ++ (c ++ ticks)) := List.drop_left _ _
    rw [stripKwToTick_head (isPrefCI_self_append _ _)
      (by rw [hd]; exact findClose_append _ b hb)]
    rw [show kwConfig ++ (b ++ (ticks ++ (c ++ ticks)))
        = (kwConfig ++ (b ++ ticks)) ++ (c ++ ticks) by simp [List.append_assoc]]
    refine List.drop_left' ?_
    simp [ticks, hkwlen]
  show some (jsTrim (removeTicks
      (stripKwToTick (kwConfig ++ (b ++ (ticks ++ (c ++ ticks))))) 0)) = some (jsTrim c)
  rw [hstrip, removeTicks_append_ticks c hc]

/-- The anchored config pattern fails when the keyword there is not
followed by two marker occurrences. -/
theorem configMatchAt_eq_none {v : List Char}
    (h : isPrefCI kwConfig v = true →
        hasTicksPair (v.drop kwConfig.length) = false) :
    configMatchAt v = none := by
  unfold configMatchAt
  by_cases hk : isPrefCI kwConfig v
  · rw [if_pos hk]
    show (match findClose (v.drop kwConfig.length) with
      | some (_, n1) =>
        match findClose ((v.drop kwConfig.length).drop n1) with
        | some (_, n2) => some (v.take (kwConfig.length + n1 + n2))
        | none => none
      | none => none) = none
    have hp := h hk
    unfold hasTicksPair at hp
    cases hj : firstTickIdx (v.drop kwConfig.length) with
    | none =>
      have hfc : findClose (v.drop kwConfig.length) = none := by
        rw [findClose_eq_firstTickIdx, hj]
        rfl
      rw [hfc]
    | some j =>
      have hfc : findClose (v.drop kwConfig.length)
          = some ((v.drop kwConfig.length).take j, j + 3) := by
        rw [findClose_eq_firstTickIdx, hj]
        rfl
      rw [hfc]
      rw [hj] at hp
      show (match findClose ((v.drop kwConfig.length).drop (j + 3)) with
        | some (_, n2) => some (v.take (kwConfig.length + (j + 3) + n2))
        | none => none) = none
      rw [findClose_of_tickfree hp]
  · rw [if_neg hk]

/-- If the anchored matcher fails at every position, the search fails. -/
theorem searchAux_none_of_all {f : List Char → Option (List Char)} :
    ∀ s : List Char, (∀ i, f (s.drop i) = none) → searchAux f s = none := by
  intro s
  induction s with
  | nil =>
    intro h
    show f [] = none
    exact h 0
  | cons c rest ih =>
    intro h
    have h0 : f (c :: rest) = none := h 0
    simp only [searchAux, h0]
    exact ih (fun i => h (i + 1))

/-- The null branch of the amended C6: when no (case-insensitive) keyword
occurrence is followed by an opening and a closing fence marker â no
labelled region exists â `configText` is null. -/
theorem extractConfig_no_region (text : List Char)
    (h : ∀ i < text.length, isPrefCI kwConfig (text.drop i) = true →
        hasTicksPair (text.drop (i + kwConfig.length)) = false) :
    extractConfig text = none := by
  have hall : ∀ i, configMatchAt (text.drop i) = none := by
    intro i
    by_cases hi : i < text.length
    · refine configMatchAt_eq_none ?_
      intro hk
      have heq : (text.drop i).drop kwConfig.length = text.drop (i + kwConfig.length) := by
        rw [List.drop_drop]
      rw [heq]
      exact h i hi hk
    · have hnil : text.drop i = [] := List.drop_eq_nil_of_le (by omega)
      rw [hnil]
      decide
  unfold extractConfig
  rw [searchAux_none_of_all text hall]

/-- C6 amended, both branches. Positive: for a text whose first
case-insensitive keyword occurrence is followed by a fenced region with
backtick-free gap and body, `configText` is the trimmed text between the
two markers of that region, including the opening marker’s language tag
(only the keyword through the first marker is stripped). Null: when no
keyword occurrence is followed by two markers, `configText` is null. In
both branches the result reads only the raw text, so it is independent of
whether the region was also captured as an artifact. -/
theorem c6_amended :
    (∀ a b c d : List Char,
      (∀ i < a.length, isPrefCI kwConfig
          ((a ++ (kwConfig ++ (b ++ (ticks ++ (c ++ (ticks ++ d)))))).drop i) = false) →
      b.all (fun x => x ≠ btick) = true →
      c.all (fun x => x ≠ btick) = true →
      extractConfig (a ++ (kwConfig ++ (b ++ (ticks ++ (c ++ (ticks ++ d))))))
        = some (jsTrim c))
    ∧ (∀ text : List Char,
      (∀ i < text.length, isPrefCI kwConfig (text.drop i) = true →
          hasTicksPair (text.drop (i + kwConfig.length)) = false) →
      extractConfig text = none) :=
  ⟨fun a b c d ha hb hc => extractConfig_labelled a b c d ha hb hc,
   fun text h => extractConfig_no_region text h⟩

/-- Witness for the amended C6: the positive branch at a labelled block
whose leading prose contains the letter `w` (“We use …”), and the null
branch at a text that mentions the keyword but has no fence markers. -/
theorem c6_amended_witness :
    extractConfig ("We use ".toList ++ (kwConfig ++ ("\n".toList ++ (ticks ++
        ("toml\nname = 1\n".toList ++ (ticks ++ "\ntail".toList))))))
      = some (jsTrim ("toml\nname = 1\n".toList))
    ∧ extractConfig ("see wrangler.toml for the config".toList) = none :=
  ⟨c6_amended.1 ("We use ".toList) ("\n".toList) ("toml\nname = 1\n".toList)
     ("\ntail".toList) (by decide) (by decide) (by decide),
   c6_amended.2 ("see wrangler.toml for the config".toList) (by decide)⟩

/-! ## The filename-inference window (C7) -/

/-- Counterexample to C7 as stated. The input holds two `md` fences; the
first fence's body is `a.js:`. The window the claim prescribes for the
second fence — from the end of the first fence to the start of the second —
is just a newline, on which the inference rules produce the empty filename.
The code instead searches the whole prefix `text.substring(0, match.index)`,
finds `a.js:` inside the first fence's body via the colon rule, and names
the second artifact `a.js`. -/
theorem c7_cex :
    (extractCodeBlocks ("```md\na.js:\n```\n```md\nx\n```".toList)).map
        (fun b => b.filename)
      = [[], "a.js".toList]
    ∧ inferFilename ("\n".toList) ("md".toList) = []
    ∧ "a.js".toList ≠ ([] : List Char) :=
  ⟨by decide, by decide, by decide⟩

/-- Indexing into the block loop's output. -/
theorem blocksLoop_get? (text : List Char) :
    ∀ (ms : List RawMatch) (ord i : Nat),
      (blocksLoop text ms ord).get? i = (ms.get? i).map (fun m => mkBlock text m (ord + i)) := by
  intro ms
  induction ms with
  | nil => intro ord i; simp [blocksLoop]
  | cons m ms ih =>
    intro ord i
    cases i with
    | zero => simp [blocksLoop]
    | succ i' =>
      simp only [blocksLoop, List.get?_cons_succ, ih (ord + 1) i']
      rw [show ord + 1 + i' = ord + (i' + 1) from by omega]

/-- C7 amended: for a fence without an explicit filename attribute, the
inference rules examine the whole text from the START of the input to the
start of the fence (`text.substring(0, match.index)`) — not merely the
window after the previous fence — and the first rule in the fixed priority
order that matches there determines the filename. -/
theorem c7_amended (text : List Char) (i : Nat) (m : RawMatch)
    (hm : (scanFences text).get? i = some m)
    (hf : (m.fname.getD []).isEmpty = true) :
    (extractCodeBlocks text).get? i
      = some ⟨inferFilename (text.take m.idx) (m.lang.getD defaultLang),
              jsTrim m.body, m.lang.getD defaultLang, i⟩ := by
  have hs : scanFences text ≠ [] := by
    intro h
    rw [h] at hm
    simp at hm
  have hnil : m.fname.getD [] = [] := by
    cases hx : m.fname.getD [] with
    | nil => rfl
    | cons a l => rw [hx] at hf; simp [List.isEmpty] at hf
  rw [extractCodeBlocks_eq_loop text hs, blocksLoop_get? text _ 0 i, hm]
  simp [mkBlock, hnil]

/-- Witness for the amended C7 at the second fence of the counterexample
input. -/
theorem c7_amended_witness :
    (scanFences ("```md\na.js:\n```\n```md\nx\n```".toList)).get? 1
      = some ⟨16, some ("md".toList), none, "x\n".toList, 11⟩
    ∧ (extractCodeBlocks ("```md\na.js:\n```\n```md\nx\n```".toList)).get? 1
      = some ⟨inferFilename (("```md\na.js:\n```\n```md\nx\n```".toList).take 16)
                ((some ("md".toList)).getD defaultLang),
              jsTrim ("x\n".toList), (some ("md".toList)).getD defaultLang, 1⟩ :=
  ⟨by decide,
   c7_amended ("```md\na.js:\n```\n```md\nx\n```".toList) 1
     ⟨16, some ("md".toList), none, "x\n".toList, 11⟩ (by decide) (by decide)⟩

/-! ## Trim lemmas -/

/-- The head surviving `dropWhile` falsifies the predicate. -/
theorem dropWhile_head_false (p : Char → Bool) : ∀ (l : List Char),
    ∀ c ∈ (l.dropWhile p).head?, p c = false := by
  intro l
  induction l with
  | nil => intro c hc; simp at hc
  | cons x rest ih =>
    intro c hc
    by_cases hx : p x
    · rw [List.dropWhile_cons_of_pos hx] at hc
      exact ih c hc
    · rw [List.dropWhile_cons_of_neg hx] at hc
      simp at hc
      rw [hc] at hx
      simpa using hx

/-- `dropWhile` is the identity when the head already falsifies the
predicate. -/
theorem dropWhile_of_head_false (p : Char → Bool) (l : List Char)
    (h : ∀ c ∈ l.head?, p c = false) : l.dropWhile p = l := by
  cases l with
  | nil => rfl
  | cons x rest =>
    have hx : p x = false := h x (by simp)
    rw [List.dropWhile_cons_of_neg (by simp [hx])]

/-- A non-empty `dropWhile` result keeps the original last element. -/
theorem getLast?_dropWhile (p : Char → Bool) : ∀ (l : List Char),
    l.dropWhile p ≠ [] → (l.dropWhile p).getLast? = l.getLast? := by
  intro l
  induction l with
  | nil => intro h; simp at h
  | cons x rest ih =>
    intro h
    by_cases hx : p x
    · rw [List.dropWhile_cons_of_pos hx] at h ⊢
      rw [ih h]
      have hne : rest ≠ [] := by
        intro hr
        rw [hr] at h
        simp at h
      cases rest with
      | nil => exact absurd rfl hne
      | cons b l => rw [List.getLast?_cons_cons]
    · rw [List.dropWhile_cons_of_neg hx]

/-- Elements falsifying the predicate survive `dropWhile`. -/
theorem mem_dropWhile_of_false (p : Char → Bool) : ∀ (l : List Char) (x : Char),
    x ∈ l → p x = false → x ∈ l.dropWhile p := by
  intro l
  induction l with
  | nil => intro x hx _; simp at hx
  | cons c rest ih =>
    intro x hx hpx
    by_cases hc : p c
    · rw [List.dropWhile_cons_of_pos hc]
      cases List.mem_cons.mp hx with
      | inl he => rw [he] at hpx; rw [hpx] at hc; simp at hc
      | inr hm => exact ih x hm hpx
    · rw [List.dropWhile_cons_of_neg hc]
      exact hx

/-- A non-space element keeps the trim from emptying the string. -/
theorem jsTrim_ne_nil {s : List Char} {x : Char} (hx : x ∈ s)
    (hp : isJsSpace x = false) : jsTrim s ≠ [] := by
  unfold jsTrim
  intro h
  have h1 : x ∈ s.dropWhile isJsSpace := mem_dropWhile_of_false _ s x hx hp
  have h2 : x ∈ (s.dropWhile isJsSpace).reverse := List.mem_reverse.mpr h1
  have h3 : x ∈ (s.dropWhile isJsSpace).reverse.dropWhile isJsSpace :=
    mem_dropWhile_of_false _ _ x h2 hp
  have h4 : x ∈ ((s.dropWhile isJsSpace).reverse.dropWhile isJsSpace).reverse :=
    List.mem_reverse.mpr h3
  rw [h] at h4
  simp at h4

/-- Trimming a string whose ends are already non-space does nothing. -/
theorem jsTrim_eq_self (s : List Char)
    (h1 : ∀ c ∈ s.head?, isJsSpace c = false)
    (h2 : ∀ c ∈ s.getLast?, isJsSpace c = false) : jsTrim s = s := by
  unfold jsTrim
  rw [dropWhile_of_head_false _ s h1]
  rw [dropWhile_of_head_false _ s.reverse (by
    intro c hc
    rw [List.head?_reverse] at hc
    exact h2 c hc)]
  exact List.reverse_reverse s

/-- The head of a trimmed string is non-space. -/
theorem jsTrim_head_false (s : List Char) :
    ∀ c ∈ (jsTrim s).head?, isJsSpace c = false := by
  intro c hc
  unfold jsTrim at hc
  rw [List.head?_reverse] at hc
  by_cases hne : (s.dropWhile isJsSpace).reverse.dropWhile isJsSpace = []
  · rw [hne] at hc
    simp at hc
  · rw [getLast?_dropWhile _ _ hne, List.getLast?_reverse] at hc
    exact dropWhile_head_false _ s c hc

/-- The last element of a trimmed string is non-space. -/
theorem jsTrim_getLast_false (s : List Char) :
    ∀ c ∈ (jsTrim s).getLast?, isJsSpace c = false := by
  intro c hc
  unfold jsTrim at hc
  rw [List.getLast?_reverse] at hc
  exact dropWhile_head_false _ _ c hc

/-- Trimming is idempotent. -/
theorem jsTrim_idem (s : List Char) : jsTrim (jsTrim s) = jsTrim s :=
  jsTrim_eq_self (jsTrim s) (jsTrim_head_false s) (jsTrim_getLast_false s)

/-! ## The explanation under the fallback (C10) -/

/-- A text containing a marker contains a backtick. -/
theorem btick_mem_of_hasTicks : ∀ {s : List Char}, hasTicks s = true → btick ∈ s := by
  intro s
  induction s with
  | nil => intro h; simp [hasTicks] at h
  | cons c rest ih =>
    intro h
    rw [show hasTicks (c :: rest) = (ticks.isPrefixOf (c :: rest) || hasTicks rest) from rfl] at h
    cases Bool.or_eq_true_iff.mp h with
    | inl hp =>
      have : c = btick := by
        simp [ticks, List.isPrefixOf] at hp
        exact hp.1.symm
      rw [this]
      exact List.mem_cons_self _ _
    | inr hr => exact List.mem_cons_of_mem _ (ih hr)

/-- C10: whenever the scan finds no well-formed fence but a marker occurs
(the fallback situation), the reconstructed explanation is exactly the raw
input trimmed — the malformed markers stay verbatim and no canonical
rendering is emitted for the fallback artifact. -/
theorem c10_fallback_explanation (text : List Char)
    (hscan : scanFences text = []) (ht : hasTicks text = true) :
    preserveOrderedContent text (extractCodeBlocks text) = jsTrim text := by
  have hmem : btick ∈ text := btick_mem_of_hasTicks ht
  have hspace : isJsSpace btick = false := by decide
  have hne : text ≠ [] := by
    intro h
    rw [h] at hmem
    simp at hmem
  have htrim : jsTrim text ≠ [] := jsTrim_ne_nil hmem hspace
  unfold preserveOrderedContent explFromScan
  rw [hscan]
  by_cases hb : (extractCodeBlocks text).isEmpty
  · rw [if_pos hb]
  · rw [if_neg hb]
    have hparts : partsLoop text (extractCodeBlocks text).length [] 0 0
        = [Part.text (jsTrim text)] := by
      unfold partsLoop
      have hlt : 0 < text.length := List.length_pos.mpr hne
      rw [if_pos hlt]
      rw [show text.drop 0 = text from rfl]
      rw [if_neg (by simpa [List.isEmpty_iff] using htrim)]
    rw [hparts]
    show jsTrim (jsTrim text ++ (if true then [] else sep2)) = jsTrim text
    rw [if_pos rfl]
    rw [List.append_nil]
    exact jsTrim_idem text

/-- Witness for C10 at a concrete malformed input. -/
theorem c10_fallback_explanation_witness :
    scanFences ("  ``` a ``` b  ".toList) = []
    ∧ hasTicks ("  ``` a ``` b  ".toList) = true
    ∧ preserveOrderedContent ("  ``` a ``` b  ".toList)
        (extractCodeBlocks ("  ``` a ``` b  ".toList))
      = jsTrim ("  ``` a ``` b  ".toList) :=
  ⟨by decide, by decide, c10_fallback_explanation _ (by decide) (by decide)⟩

/-! ## Concatenation lemmas for the re-scan (towards C9) -/

/-- A marker prefix fails on a single character. -/
theorem ticks_pref_one (a : Char) : ticks.isPrefixOf [a] = false := by
  simp [ticks, List.isPrefixOf]

/-- A marker prefix fails on two characters. -/
theorem ticks_pref_two (a b : Char) : ticks.isPrefixOf [a, b] = false := by
  simp [ticks, List.isPrefixOf]

/-- A marker prefix fails when the first character is not a backtick. -/
theorem ticks_pref_false_head {a : Char} (z : List Char) (h : a ≠ btick) :
    ticks.isPrefixOf (a :: z) = false := by
  simp only [ticks, List.isPrefixOf]
  rw [beq_eq_false_iff_ne.mpr (fun he => h he.symm)]
  exact Bool.false_and _

/-- A marker prefix fails when the second character is not a backtick. -/
theorem ticks_pref_false_second {b : Char} (a : Char) (z : List Char) (h : b ≠ btick) :
    ticks.isPrefixOf (a :: b :: z) = false := by
  simp only [ticks, List.isPrefixOf]
  rw [beq_eq_false_iff_ne.mpr (fun he => h he.symm)]
  simp

/-- A marker prefix fails when the third character is not a backtick. -/
theorem ticks_pref_false_third {c : Char} (a b : Char) (z : List Char) (h : c ≠ btick) :
    ticks.isPrefixOf (a :: b :: c :: z) = false := by
  simp only [ticks, List.isPrefixOf]
  rw [beq_eq_false_iff_ne.mpr (fun he => h he.symm)]
  simp

/-- The marker prefix test looks only at the first three characters. -/
theorem ticks_pref_tail_indep (a b c : Char) (z w : List Char) :
    ticks.isPrefixOf (a :: b :: c :: z) = ticks.isPrefixOf (a :: b :: c :: w) := by
  simp [ticks, List.isPrefixOf]

/-- A marker cannot start at the head of `c :: (x ++ y)` when the region
`c :: x` is marker-free and `y` does not begin with a backtick. -/
theorem ticksPref_append_false_right {c : Char} {x y : List Char}
    (hx : hasTicks (c :: x) = false) (hy : y.head? ≠ some btick) :
    ticks.isPrefixOf (c :: (x ++ y)) = false := by
  cases x with
  | nil =>
    cases y with
    | nil => exact ticks_pref_one c
    | cons y0 y1 =>
      have hy0 : y0 ≠ btick := fun h => hy (by rw [h]; rfl)
      exact ticks_pref_false_second c y1 hy0
  | cons d x' =>
    cases x' with
    | nil =>
      cases y with
      | nil => exact ticks_pref_two c d
      | cons y0 y1 =>
        have hy0 : y0 ≠ btick := fun h => hy (by rw [h]; rfl)
        exact ticks_pref_false_third c d y1 hy0
    | cons e x'' =>
      rw [show (d :: e :: x'') ++ y = d :: e :: (x'' ++ y) from rfl]
      rw [ticks_pref_tail_indep c d e (x'' ++ y) x'']
      exact no_pref_of_tickfree hx

/-- A marker cannot start at the head of `c :: (x ++ y)` when the region
`c :: x` is marker-free and does not end in a backtick. -/
theorem ticksPref_append_false_last {c : Char} {x y : List Char}
    (hx : hasTicks (c :: x) = false) (hl : (c :: x).getLast? ≠ some btick) :
    ticks.isPrefixOf (c :: (x ++ y)) = false := by
  cases x with
  | nil =>
    have hc : c ≠ btick := fun h => hl (by rw [h]; rfl)
    exact ticks_pref_false_head _ hc
  | cons d x' =>
    cases x' with
    | nil =>
      have hd : d ≠ btick := fun h => hl (by rw [h]; rfl)
      exact ticks_pref_false_second c _ hd
    | cons e x'' =>
      rw [show (d :: e :: x'') ++ y = d :: e :: (x'' ++ y) from rfl]
      rw [ticks_pref_tail_indep c d e (x'' ++ y) x'']
      exact no_pref_of_tickfree hx

/-- Appending behind a marker-free region whose head cannot complete a
marker keeps the whole marker-free. -/
theorem hasTicks_append_right {y : List Char} (hy : hasTicks y = false)
    (hhd : y.head? ≠ some btick) :
    ∀ x : List Char, hasTicks x = false → hasTicks (x ++ y) = false := by
  intro x
  induction x with
  | nil => intro _; exact hy
  | cons c x' ih =>
    intro hx
    show (ticks.isPrefixOf (c :: (x' ++ y)) || hasTicks (x' ++ y)) = false
    rw [ticksPref_append_false_right hx hhd, ih (hasTicks_tail hx)]
    rfl

/-- The scan passes over a marker-free region that does not end in a
backtick without finding a match. -/
theorem scanGo_skip_append : ∀ (a : List Char), hasTicks a = false →
    a.getLast? ≠ some btick →
    ∀ (rest : List Char) (i : Nat), scanGo (a ++ rest) i 0 = scanGo rest (i + a.length) 0 := by
  intro a
  induction a with
  | nil => intro _ _ rest i; rfl
  | cons c a' ih =>
    intro hx hl rest i
    have hp := ticksPref_append_false_last (y := rest) hx hl
    rw [show (c :: a') ++ rest = c :: (a' ++ rest) from rfl]
    simp only [scanGo, hp, Bool.false_eq_true, if_false]
    cases ha' : a' with
    | nil =>
      show scanGo rest (i + 1) 0 = scanGo rest (i + [c].length) 0
      simp
    | cons d a'' =>
      rw [← ha']
      have hl' : a'.getLast? ≠ some btick := by
        rw [ha'] at hl ⊢
        rwa [List.getLast?_cons_cons] at hl
      rw [ih (hasTicks_tail hx) hl' rest (i + 1)]
      have harith : i + 1 + a'.length = i + (c :: a').length := by
        rw [List.length_cons]
        omega
      rw [harith]

/-- A pattern with no newline that fails on `x` also fails on `x` followed
by a newline and anything. -/
theorem isPrefixOf_append_nl_false : ∀ (p x z : List Char), (∀ ch ∈ p, ch ≠ '\n') →
    p.isPrefixOf x = false → p.isPrefixOf (x ++ '\n' :: z) = false := by
  intro p
  induction p with
  | nil => intro x z _ h; simp [List.isPrefixOf] at h
  | cons a p' ih =>
    intro x z hnl h
    cases x with
    | nil =>
      have ha : a ≠ '\n' := hnl a (by simp)
      show (a :: p').isPrefixOf ('\n' :: z) = false
      simp only [List.isPrefixOf]
      rw [beq_eq_false_iff_ne.mpr ha]
      exact Bool.false_and _
    | cons b x' =>
      simp only [List.isPrefixOf, Bool.and_eq_false_iff] at h
      rw [show (b :: x') ++ '\n' :: z = b :: (x' ++ '\n' :: z) from rfl]
      simp only [List.isPrefixOf, Bool.and_eq_false_iff]
      cases h with
      | inl hab => exact Or.inl hab
      | inr ht =>
        exact Or.inr (ih x' z (fun ch hch => hnl ch (List.mem_cons_of_mem _ hch)) ht)

/-- `takeWhile` over a satisfying run followed by a failing element. -/
theorem takeWhile_append_end (p : Char → Bool) : ∀ (x : List Char) (y0 : Char) (z : List Char),
    x.all p = true → p y0 = false → (x ++ y0 :: z).takeWhile p = x := by
  intro x
  induction x with
  | nil => intro y0 z _ hy; simp [List.takeWhile_cons, hy]
  | cons c x' ih =>
    intro y0 z hx hy
    simp only [List.all_cons, Bool.and_eq_true] at hx
    rw [show (c :: x') ++ y0 :: z = c :: (x' ++ y0 :: z) from rfl]
    rw [List.takeWhile_cons_of_pos hx.1, ih y0 z hx.2 hy]

/-! ## Re-scanning a rendered fence (towards C9) -/

/-- The attribute literal fails on any head other than `f`. -/
theorem fnameLit_pref_false_head {c : Char} (z : List Char) (h : c ≠ 'f') :
    fnameLit.isPrefixOf (c :: z) = false := by
  rw [show fnameLit = 'f' :: ("ilename=" ++ "\"").toList from by decide]
  simp only [List.isPrefixOf]
  rw [beq_eq_false_iff_ne.mpr (fun he => h he.symm)]
  exact Bool.false_and _

/-- The marker is a prefix of itself followed by anything. -/
theorem ticks_isPrefixOf_append (z : List Char) : ticks.isPrefixOf (ticks ++ z) = true := by
  simp [ticks, List.isPrefixOf]

/-- The lazy close fires immediately at a marker. -/
theorem findClose_at_ticks (z : List Char) : findClose (ticks ++ z) = some ([], 3) := by
  have h := ticks_isPrefixOf_append z
  rw [show ticks ++ z = btick :: ([btick, btick] ++ z) from rfl] at h ⊢
  simp only [findClose, h, if_true]

/-- One non-matching step of the lazy close. -/
theorem findClose_cons_neg {c : Char} {rest : List Char}
    (h : ticks.isPrefixOf (c :: rest) = false) :
    findClose (c :: rest) = (match findClose rest with
      | some (body, n) => some (c :: body, n + 1)
      | none => none) := by
  simp only [findClose, h, Bool.false_eq_true, if_false]

/-- The lazy close scans over a marker-free body up to the closing marker
just after the newline. -/
theorem findClose_code : ∀ (code : List Char), hasTicks code = false →
    ∀ z : List Char, findClose (code ++ '\n' :: (ticks ++ z))
      = some (code ++ ['\n'], code.length + 4) := by
  intro code
  induction code with
  | nil =>
    intro _ z
    show findClose ('\n' :: (ticks ++ z)) = some (['\n'], 4)
    have h1 : ticks.isPrefixOf ('\n' :: (ticks ++ z)) = false :=
      ticks_pref_false_head _ (by decide)
    rw [findClose_cons_neg h1, findClose_at_ticks]
  | cons c0 code' ih =>
    intro hcode z
    have hy : ('\n' :: (ticks ++ z)).head? ≠ some btick := by
      simp only [List.head?_cons]
      intro h
      have h2 : '\n' = btick := by injection h
      exact absurd h2 (by decide)
    have hpr : ticks.isPrefixOf (c0 :: (code' ++ '\n' :: (ticks ++ z))) = false :=
      ticksPref_append_false_right hcode hy
    rw [show (c0 :: code') ++ '\n' :: (ticks ++ z) = c0 :: (code' ++ '\n' :: (ticks ++ z))
      from rfl]
    rw [findClose_cons_neg hpr, ih (hasTicks_tail hcode) z]
    rfl

/-- A text whose attribute-literal test fails yields no filename group. -/
theorem matchFname_none_of_pref {s : List Char} (h : fnameLit.isPrefixOf s = false) :
    matchFname s = none := by
  unfold matchFname
  rw [h]
  simp

/-- A single attempt fails when neither the group nor the newline can start. -/
theorem tryAtJ_none_of {s : List Char} (hm : matchFname s = none)
    (hh : s.head? ≠ some '\n') : tryAtJ s = none := by
  unfold tryAtJ
  rw [hm, if_neg hh]

/-- A single attempt at a newline followed by a closable stretch. -/
theorem tryAtJ_newline {z : List Char} {body : List Char} {n : Nat}
    (hfc : findClose z = some (body, n)) :
    tryAtJ ('\n' :: z) = some (none, body, 1 + n) := by
  unfold tryAtJ
  rw [matchFname_none_of_pref (fnameLit_pref_false_head z (by decide))]
  rw [if_pos (by simp)]
  rw [show ('\n' :: z).drop 1 = z from rfl, hfc]

/-- The space-then-rest matcher on the tail of a rendered fence. -/
theorem matchSpacesThen_fence (code z : List Char)
    (hcode : hasTicks code = false) (hfn : fnameLit.isPrefixOf code = false)
    (hhd : ∀ ch ∈ code.head?, isJsSpace ch = false) :
    matchSpacesThen ('\n' :: (code ++ '\n' :: (ticks ++ z)))
      = some (none, scannedBody code, code.length + 5) := by
  cases code with
  | nil =>
    show matchSpacesThen ('\n' :: '\n' :: (ticks ++ z)) = some (none, scannedBody [], 0 + 5)
    have hsp : ('\n' :: '\n' :: (ticks ++ z)).takeWhile isJsSpace = ['\n', '\n'] := by
      rw [show '\n' :: '\n' :: (ticks ++ z)
          = ['\n', '\n'] ++ (btick :: ([btick, btick] ++ z)) from rfl]
      exact takeWhile_append_end _ _ _ _ (by decide) (by decide)
    unfold matchSpacesThen
    rw [hsp]
    show tryJs ('\n' :: '\n' :: (ticks ++ z)) 2 = some (none, scannedBody [], 0 + 5)
    have h2 : tryAtJ (ticks ++ z) = none := by
      refine tryAtJ_none_of ?_ ?_
      · refine matchFname_none_of_pref ?_
        rw [show ticks ++ z = btick :: ([btick, btick] ++ z) from rfl]
        exact fnameLit_pref_false_head _ (by decide)
      · rw [show ticks ++ z = btick :: ([btick, btick] ++ z) from rfl]
        simp only [List.head?_cons]
        intro h
        have h3 : btick = '\n' := by injection h
        exact absurd h3 (by decide)
    have h1 : tryAtJ (('\n' :: '\n' :: (ticks ++ z)).drop 2) = none := h2
    show (match tryAtJ (('\n' :: '\n' :: (ticks ++ z)).drop (1 + 1)) with
      | some (f, body, n) => some (f, body, 1 + 1 + n)
      | none => tryJs ('\n' :: '\n' :: (ticks ++ z)) 1) = some (none, scannedBody [], 0 + 5)
    rw [show (('\n' :: '\n' :: (ticks ++ z)).drop (1 + 1)) = ticks ++ z from rfl, h2]
    show (match tryAtJ (('\n' :: '\n' :: (ticks ++ z)).drop (0 + 1)) with
      | some (f, body, n) => some (f, body, 0 + 1 + n)
      | none => tryJs ('\n' :: '\n' :: (ticks ++ z)) 0) = some (none, scannedBody [], 0 + 5)
    rw [show (('\n' :: '\n' :: (ticks ++ z)).drop (0 + 1)) = '\n' :: (ticks ++ z) from rfl]
    rw [tryAtJ_newline (findClose_at_ticks z)]
    show some (none, [], 0 + 1 + (1 + 3)) = some (none, scannedBody [], 0 + 5)
    rw [show scannedBody [] = [] from rfl]
  | cons c0 code' =>
    have hc0 : isJsSpace c0 = false := hhd c0 (by simp)
    have hc0n : c0 ≠ '\n' := by
      intro h
      rw [h] at hc0
      exact absurd hc0 (by decide)
    have hsp : ('\n' :: ((c0 :: code') ++ '\n' :: (ticks ++ z))).takeWhile isJsSpace
        = ['\n'] := by
      rw [show '\n' :: ((c0 :: code') ++ '\n' :: (ticks ++ z))
          = ['\n'] ++ (c0 :: (code' ++ '\n' :: (ticks ++ z))) from rfl]
      exact takeWhile_append_end _ _ _ _ (by decide) hc0
    unfold matchSpacesThen
    rw [hsp]
    show tryJs ('\n' :: ((c0 :: code') ++ '\n' :: (ticks ++ z))) 1
      = some (none, scannedBody (c0 :: code'), (c0 :: code').length + 5)
    have h1 : tryAtJ ((c0 :: code') ++ '\n' :: (ticks ++ z)) = none := by
      refine tryAtJ_none_of ?_ ?_
      · refine matchFname_none_of_pref ?_
        exact isPrefixOf_append_nl_false fnameLit (c0 :: code') (ticks ++ z)
          (by decide) hfn
      · rw [show (c0 :: code') ++ '\n' :: (ticks ++ z)
            = c0 :: (code' ++ '\n' :: (ticks ++ z)) from rfl]
        simp only [List.head?_cons]
        intro h
        have h3 : c0 = '\n' := by injection h
        exact absurd h3 hc0n
    show (match tryAtJ (('\n' :: ((c0 :: code') ++ '\n' :: (ticks ++ z))).drop (0 + 1)) with
      | some (f, body, n) => some (f, body, 0 + 1 + n)
      | none => tryJs ('\n' :: ((c0 :: code') ++ '\n' :: (ticks ++ z))) 0)
      = some (none, scannedBody (c0 :: code'), (c0 :: code').length + 5)
    rw [show (('\n' :: ((c0 :: code') ++ '\n' :: (ticks ++ z))).drop (0 + 1))
        = (c0 :: code') ++ '\n' :: (ticks ++ z) from rfl, h1]
    show tryAtJ ('\n' :: ((c0 :: code') ++ '\n' :: (ticks ++ z)))
      = some (none, scannedBody (c0 :: code'), (c0 :: code').length + 5)
    rw [tryAtJ_newline (findClose_code (c0 :: code') hcode z)]
    rw [show scannedBody (c0 :: code') = (c0 :: code') ++ ['\n'] from by
      simp [scannedBody]]
    rw [show 1 + ((c0 :: code').length + 4) = (c0 :: code').length + 5 from by omega]

/-- The full fence pattern after the opening marker, on a rendered fence:
language captured whole, no filename group, the scanned body, and the exact
consumed length. -/
theorem matchOpen_fence (lang code z : List Char)
    (hlang : lang ≠ []) (hw : lang.all isWordChar = true)
    (hcode : hasTicks code = false) (hfn : fnameLit.isPrefixOf code = false)
    (hhd : ∀ ch ∈ code.head?, isJsSpace ch = false) :
    matchOpen (lang ++ '\n' :: (code ++ '\n' :: (ticks ++ z)))
      = some (some lang, none, scannedBody code, lang.length + (code.length + 5)) := by
  obtain ⟨l0, ls, rfl⟩ : ∃ l0 ls, lang = l0 :: ls := by
    cases lang with
    | nil => exact absurd rfl hlang
    | cons a b => exact ⟨a, b, rfl⟩
  have htw : ((l0 :: ls) ++ '\n' :: (code ++ '\n' :: (ticks ++ z))).takeWhile isWordChar
      = l0 :: ls := takeWhile_append_end _ _ _ _ hw (by decide)
  have hdrop : ((l0 :: ls) ++ '\n' :: (code ++ '\n' :: (ticks ++ z))).drop (ls.length + 1)
      = '\n' :: (code ++ '\n' :: (ticks ++ z)) := by
    rw [show ls.length + 1 = (l0 :: ls).length from rfl]
    exact List.drop_left _ _
  have htk : ((l0 :: ls) ++ '\n' :: (code ++ '\n' :: (ticks ++ z))).take (ls.length + 1)
      = l0 :: ls := by
    rw [show ls.length + 1 = (l0 :: ls).length from rfl]
    exact List.take_left _ _
  unfold matchOpen
  rw [htw]
  show (match matchSpacesThen
      (((l0 :: ls) ++ '\n' :: (code ++ '\n' :: (ticks ++ z))).drop (ls.length + 1)) with
    | some (f, body, n) =>
      some (some (((l0 :: ls) ++ '\n' :: (code ++ '\n' :: (ticks ++ z))).take (ls.length + 1)),
        f, body, ls.length + 1 + n)
    | none => tryKs ((l0 :: ls) ++ '\n' :: (code ++ '\n' :: (ticks ++ z))) ls.length)
    = some (some (l0 :: ls), none, scannedBody code, (l0 :: ls).length + (code.length + 5))
  rw [hdrop, matchSpacesThen_fence code z hcode hfn hhd, htk]
  show some (some (l0 :: ls), none, scannedBody code, ls.length + 1 + (code.length + 5))
    = some (some (l0 :: ls), none, scannedBody code, (l0 :: ls).length + (code.length + 5))
  rw [List.length_cons]

/-- One matching step of the scan, kept un-unfolded on the tail. -/
theorem scanGo_cons_match {c : Char} {rest' : List Char} {i : Nat}
    {lg f : Option (List Char)} {body : List Char} {n : Nat}
    (hpr : ticks.isPrefixOf (c :: rest') = true)
    (hmo : matchOpen (rest'.drop 2) = some (lg, f, body, n)) :
    scanGo (c :: rest') i 0 = ⟨i, lg, f, body, 3 + n⟩ :: scanGo rest' (i + 1) (2 + n) := by
  simp only [scanGo, hpr, if_true, hmo]

/-- Scanning a rendered fence followed by anything: one match with the
expected captures, then the scan of the remainder. -/
theorem scanGo_fence (lang code rest : List Char) (i : Nat)
    (hlang : lang ≠ []) (hw : lang.all isWordChar = true)
    (hcode : hasTicks code = false) (hfn : fnameLit.isPrefixOf code = false)
    (hhd : ∀ ch ∈ code.head?, isJsSpace ch = false) :
    scanGo ((ticks ++ (lang ++ '\n' :: (code ++ '\n' :: ticks))) ++ rest) i 0
      = ⟨i, some lang, none, scannedBody code, 3 + (lang.length + (code.length + 5))⟩
          :: scanGo rest (i + (3 + (lang.length + (code.length + 5)))) 0 := by
  have hL : (ticks ++ (lang ++ '\n' :: (code ++ '\n' :: ticks))) ++ rest
      = btick :: (btick :: btick :: (lang ++ '\n' :: (code ++ '\n' :: (ticks ++ rest)))) := by
    simp [ticks, List.append_assoc]
  have hpr : ticks.isPrefixOf
      (btick :: (btick :: btick :: (lang ++ '\n' :: (code ++ '\n' :: (ticks ++ rest)))))
      = true := by
    simp [ticks, List.isPrefixOf]
  have hmo : matchOpen ((btick :: btick :: (lang ++ '\n' :: (code ++ '\n' :: (ticks ++ rest)))).drop 2)
      = some (some lang, none, scannedBody code, lang.length + (code.length + 5)) := by
    rw [show (btick :: btick :: (lang ++ '\n' :: (code ++ '\n' :: (ticks ++ rest)))).drop 2
        = lang ++ '\n' :: (code ++ '\n' :: (ticks ++ rest)) from rfl]
    exact matchOpen_fence lang code rest hlang hw hcode hfn hhd
  rw [hL]
  rw [scanGo_cons_match hpr hmo]
  have hskip := scanGo_skip (btick :: btick :: (lang ++ '\n' :: (code ++ '\n' :: (ticks ++ rest))))
    (i + 1) (2 + (lang.length + (code.length + 5)))
  rw [hskip]
  have hdropX : (btick :: btick :: (lang ++ '\n' :: (code ++ '\n' :: (ticks ++ rest)))).drop
      (2 + (lang.length + (code.length + 5))) = rest := by
    rw [show btick :: btick :: (lang ++ '\n' :: (code ++ '\n' :: (ticks ++ rest)))
        = (btick :: btick :: (lang ++ '\n' :: (code ++ '\n' :: ticks))) ++ rest from by
      simp [ticks, List.append_assoc]]
    refine List.drop_left' ?_
    simp [ticks]
    omega
  rw [hdropX]
  rw [show i + 1 + (2 + (lang.length + (code.length + 5)))
      = i + (3 + (lang.length + (code.length + 5))) from by omega]

/-! ## Render-side lemmas (towards C9) -/

/-- A trailing newline is removed by the trim. -/
theorem jsTrim_append_nl (x : List Char) : jsTrim (x ++ ['\n']) = jsTrim x := by
  unfold jsTrim
  rw [List.dropWhile_append]
  by_cases he : (x.dropWhile isJsSpace).isEmpty
  · rw [if_pos he]
    rw [List.isEmpty_iff] at he
    rw [he]
    rfl
  · rw [if_neg he]
    rw [List.reverse_append]
    rw [show (['\n'] : List Char).reverse = ['\n'] from rfl]
    rw [show ('\n' :: []) ++ (x.dropWhile isJsSpace).reverse
        = '\n' :: (x.dropWhile isJsSpace).reverse from rfl]
    rw [List.dropWhile_cons_of_pos (by decide)]

/-- Re-trimming the body the scanner reads off a rendered fence gives the
code back. -/
theorem scannedBody_trim (code : List Char) (h : jsTrim code = code) :
    jsTrim (scannedBody code) = code := by
  unfold scannedBody
  by_cases he : code.isEmpty
  · rw [if_pos he]
    rw [List.isEmpty_iff] at he
    rw [he]
    rfl
  · rw [if_neg he, jsTrim_append_nl, h]

/-- The header is marker-free when the filename is. -/
theorem hasTicks_headerOf {b : CodeBlock} (hf : hasTicks b.filename = false) :
    hasTicks (headerOf b) = false := by
  unfold headerOf
  by_cases hc : (¬ (if b.filename.isEmpty then "File".toList else b.filename).isEmpty
      && (if b.filename.isEmpty then "File".toList else b.filename) ≠ "File".toList
      && (if b.filename.isEmpty then "File".toList else b.filename) ≠ idxTsName)
  · rw [if_pos hc]
    have hfe : b.filename.isEmpty = false := by
      by_contra hne
      rw [Bool.not_eq_false] at hne
      rw [hne] at hc
      simp at hc
    rw [hfe] at hc ⊢
    show hasTicks ('*' :: '*' :: (b.filename ++ '*' :: '*' :: sep2)) = false
    rw [show hasTicks ('*' :: '*' :: (b.filename ++ '*' :: '*' :: sep2))
        = (ticks.isPrefixOf ('*' :: '*' :: (b.filename ++ '*' :: '*' :: sep2))
          || (ticks.isPrefixOf ('*' :: (b.filename ++ '*' :: '*' :: sep2))
            || hasTicks (b.filename ++ '*' :: '*' :: sep2))) from rfl]
    rw [ticks_pref_false_head _ (by decide), ticks_pref_false_head _ (by decide)]
    rw [hasTicks_append_right (y := '*' :: '*' :: sep2) (by decide) (by decide) _ hf]
    rfl
  · rw [if_neg hc]
    rfl

/-- The header is empty or ends in a newline. -/
theorem headerOf_getLast {b : CodeBlock} :
    headerOf b = [] ∨ (headerOf b).getLast? = some '\n' := by
  unfold headerOf
  by_cases hc : (¬ (if b.filename.isEmpty then "File".toList else b.filename).isEmpty
      && (if b.filename.isEmpty then "File".toList else b.filename) ≠ "File".toList
      && (if b.filename.isEmpty then "File".toList else b.filename) ≠ idxTsName)
  · rw [if_pos hc]
    right
    rw [show '*' :: '*' :: ((if b.filename.isEmpty then "File".toList else b.filename)
          ++ '*' :: '*' :: sep2)
        = ('*' :: '*' :: (if b.filename.isEmpty then "File".toList else b.filename))
          ++ '*' :: '*' :: sep2 from by simp]
    rw [List.getLast?_append_of_ne_nil _ (by simp [sep2])]
    rfl
  · rw [if_neg hc]
    left
    rfl

/-- Every prose part the loop produces is a trimmed, non-empty string. -/
theorem partsLoop_text_inv (text : List Char) (n : Nat) :
    ∀ (ms : List RawMatch) (li ci : Nat) (s : List Char),
      Part.text s ∈ partsLoop text n ms li ci → jsTrim s = s ∧ s ≠ [] := by
  intro ms
  induction ms with
  | nil =>
    intro li ci s hs
    simp only [partsLoop] at hs
    by_cases h1 : li < text.length
    · rw [if_pos h1] at hs
      by_cases h2 : (jsTrim (text.drop li)).isEmpty
      · rw [if_pos h2] at hs
        simp at hs
      · rw [if_neg h2] at hs
        simp at hs
        rw [hs]
        refine ⟨jsTrim_idem _, ?_⟩
        intro hnil
        rw [hnil] at h2
        simp at h2
    · rw [if_neg h1] at hs
      simp at hs
  | cons m ms ih =>
    intro li ci s hs
    have hpre : ∀ s', Part.text s' ∈
        (if li < m.idx then
          (if (jsTrim ((text.take m.idx).drop li)).isEmpty then ([] : List Part)
           else [Part.text (jsTrim ((text.take m.idx).drop li))]) else []) →
        jsTrim s' = s' ∧ s' ≠ [] := by
      intro s' hs'
      by_cases h1 : li < m.idx
      · rw [if_pos h1] at hs'
        by_cases h2 : (jsTrim ((text.take m.idx).drop li)).isEmpty
        · rw [if_pos h2] at hs'
          simp at hs'
        · rw [if_neg h2] at hs'
          simp at hs'
          rw [hs']
          refine ⟨jsTrim_idem _, ?_⟩
          intro hnil
          rw [hnil] at h2
          simp at h2
      · rw [if_neg h1] at hs'
        simp at hs'
    simp only [partsLoop] at hs
    by_cases hci : ci < n
    · rw [if_pos hci] at hs
      rw [List.mem_append] at hs
      cases hs with
      | inl h => exact hpre s h
      | inr h =>
        rw [List.mem_cons] at h
        cases h with
        | inl h' => exact absurd h' (by simp)
        | inr h' => exact ih _ _ s h'
    · rw [if_neg hci] at hs
      rw [List.mem_append] at hs
      cases hs with
      | inl h => exact hpre s h
      | inr h => exact ih _ _ s h

/-- Every code reference the loop produces is below the block count. -/
theorem partsLoop_code_inv (text : List Char) (n : Nat) :
    ∀ (ms : List RawMatch) (li ci : Nat) (o : Nat),
      Part.code o ∈ partsLoop text n ms li ci → o < n := by
  intro ms
  induction ms with
  | nil =>
    intro li ci o ho
    simp only [partsLoop] at ho
    by_cases h1 : li < text.length
    · rw [if_pos h1] at ho
      by_cases h2 : (jsTrim (text.drop li)).isEmpty
      · rw [if_pos h2] at ho; simp at ho
      · rw [if_neg h2] at ho; simp at ho
    · rw [if_neg h1] at ho; simp at ho
  | cons m ms ih =>
    intro li ci o ho
    have hpre : Part.code o ∉
        (if li < m.idx then
          (if (jsTrim ((text.take m.idx).drop li)).isEmpty then ([] : List Part)
           else [Part.text (jsTrim ((text.take m.idx).drop li))]) else []) := by
      by_cases h1 : li < m.idx
      · rw [if_pos h1]
        by_cases h2 : (jsTrim ((text.take m.idx).drop li)).isEmpty
        · rw [if_pos h2]; simp
        · rw [if_neg h2]; simp
      · rw [if_neg h1]; simp
    simp only [partsLoop] at ho
    by_cases hci : ci < n
    · rw [if_pos hci] at ho
      rw [List.mem_append] at ho
      cases ho with
      | inl h => exact absurd h hpre
      | inr h =>
        rw [List.mem_cons] at h
        cases h with
        | inl h' =>
          have : o = ci := by injection h'
          omega
        | inr h' => exact ih _ _ o h'
    · rw [if_neg hci] at ho
      rw [List.mem_append] at ho
      cases ho with
      | inl h => exact absurd h hpre
      | inr h => exact ih _ _ o h

/-- The rendered form of a resolvable code reference. -/
theorem renderPart_code_eq {blocks : List CodeBlock} {o : Nat} {b : CodeBlock} (isLast : Bool)
    (hb : blocks.get? o = some b) :
    renderPart blocks (Part.code o) isLast
      = headerOf b ++ ((ticks ++ (b.language ++ '\n' :: (b.code ++ '\n' :: ticks)))
          ++ (if isLast then [] else sep2)) := by
  simp only [renderPart, hb, List.append_assoc]

/-- The header never ends in a backtick. -/
theorem headerOf_getLast_ne {b : CodeBlock} : (headerOf b).getLast? ≠ some btick := by
  cases headerOf_getLast (b := b) with
  | inl h => rw [h]; simp
  | inr h =>
    rw [h]
    intro hc
    have h2 : '\n' = btick := by injection hc
    exact absurd h2 (by decide)

/-- A trimmed code body starts with a non-space character, if any. -/
theorem code_head_nonspace {code : List Char} (h : jsTrim code = code) :
    ∀ ch ∈ code.head?, isJsSpace ch = false := by
  intro ch hch
  have h2 := jsTrim_head_false code
  rw [h] at h2
  exact h2 ch hch

/-- Scanning the rendered parts finds exactly the rendered fences, whose
trimmed bodies are the referenced blocks' codes, in order. -/
theorem scanGo_render (blocks : List CodeBlock) :
    ∀ (ps : List Part) (i : Nat),
      (∀ s, Part.text s ∈ ps → hasTicks s = false ∧ jsTrim s = s ∧ s ≠ []) →
      (∀ o, Part.code o ∈ ps → ∃ b, blocks.get? o = some b ∧ goodB b) →
      (scanGo (renderLoop blocks ps) i 0).map (fun m => jsTrim m.body)
        = (codeOrders ps).filterMap (fun o => (blocks.get? o).map (fun b => b.code)) := by
  intro ps
  induction ps with
  | nil => intro i _ _; rfl
  | cons p ps' ih =>
    intro i htext hcode
    cases ps' with
    | nil =>
      cases p with
      | text s =>
        obtain ⟨hT, htr, hne⟩ := htext s (by simp)
        show (scanGo (renderPart blocks (Part.text s) true) i 0).map (fun m => jsTrim m.body)
          = (codeOrders [Part.text s]).filterMap (fun o => (blocks.get? o).map (fun b => b.code))
        rw [show renderPart blocks (Part.text s) true = s from by simp [renderPart]]
        rw [scanGo_of_tickfree hT i]
        rfl
      | code o =>
        obtain ⟨b, hb, hg⟩ := hcode o (by simp)
        obtain ⟨hbc, hbf, hbt, hbfn, hbl, hbw⟩ := hg
        show (scanGo (renderPart blocks (Part.code o) true) i 0).map (fun m => jsTrim m.body)
          = (codeOrders [Part.code o]).filterMap (fun o => (blocks.get? o).map (fun b => b.code))
        rw [renderPart_code_eq true hb]
        rw [show (if true then ([] : List Char) else sep2) = [] from rfl]
        rw [List.append_nil]
        rw [scanGo_skip_append (headerOf b) (hasTicks_headerOf hbfn) headerOf_getLast_ne _ _]
        rw [show ticks ++ (b.language ++ '\n' :: (b.code ++ '\n' :: ticks))
            = (ticks ++ (b.language ++ '\n' :: (b.code ++ '\n' :: ticks))) ++ [] from
          (List.append_nil _).symm]
        rw [scanGo_fence b.language b.code [] _ hbl hbw hbc hbf (code_head_nonspace hbt)]
        rw [show scanGo ([] : List Char)
            (i + (headerOf b).length + (3 + (b.language.length + (b.code.length + 5)))) 0
          = [] from rfl]
        rw [List.map_cons]
        rw [scannedBody_trim b.code hbt]
        have hb2 : blocks[o]? = some b := by
          rw [← List.get?_eq_getElem?]
          exact hb
        simp [codeOrders, hb, hb2]
    | cons q ps'' =>
      have htext' : ∀ s, Part.text s ∈ q :: ps'' → hasTicks s = false ∧ jsTrim s = s ∧ s ≠ [] :=
        fun s hs => htext s (List.mem_cons_of_mem _ hs)
      have hcode' : ∀ o, Part.code o ∈ q :: ps'' → ∃ b, blocks.get? o = some b ∧ goodB b :=
        fun o ho => hcode o (List.mem_cons_of_mem _ ho)
      cases p with
      | text s =>
        obtain ⟨hT, htr, hne⟩ := htext s (by simp)
        show (scanGo (renderPart blocks (Part.text s) false ++ renderLoop blocks (q :: ps''))
            i 0).map (fun m => jsTrim m.body)
          = (codeOrders (Part.text s :: q :: ps'')).filterMap
              (fun o => (blocks.get? o).map (fun b => b.code))
        rw [show renderPart blocks (Part.text s) false = s ++ sep2 from by simp [renderPart]]
        have hsepT : hasTicks (s ++ sep2) = false :=
          hasTicks_append_right (y := sep2) (by decide) (by decide) s hT
        have hsepL : (s ++ sep2).getLast? ≠ some btick := by
          rw [List.getLast?_append_of_ne_nil _ (by simp [sep2])]
          intro hc
          have h2 : '\n' = btick := by injection hc
          exact absurd h2 (by decide)
        rw [scanGo_skip_append (s ++ sep2) hsepT hsepL _ _]
        rw [ih _ htext' hcode']
        rfl
      | code o =>
        obtain ⟨b, hb, hg⟩ := hcode o (by simp)
        obtain ⟨hbc, hbf, hbt, hbfn, hbl, hbw⟩ := hg
        show (scanGo (renderPart blocks (Part.code o) false ++ renderLoop blocks (q :: ps''))
            i 0).map (fun m => jsTrim m.body)
          = (codeOrders (Part.code o :: q :: ps'')).filterMap
              (fun o => (blocks.get? o).map (fun b => b.code))
        rw [renderPart_code_eq false hb]
        rw [show (if false then ([] : List Char) else sep2) = sep2 from rfl]
        rw [show (headerOf b ++ ((ticks ++ (b.language ++ '\n' :: (b.code ++ '\n' :: ticks)))
              ++ sep2)) ++ renderLoop blocks (q :: ps'')
            = headerOf b ++ ((ticks ++ (b.language ++ '\n' :: (b.code ++ '\n' :: ticks)))
              ++ (sep2 ++ renderLoop blocks (q :: ps''))) from by simp [List.append_assoc]]
        rw [scanGo_skip_append (headerOf b) (hasTicks_headerOf hbfn) headerOf_getLast_ne _ _]
        rw [scanGo_fence b.language b.code (sep2 ++ renderLoop blocks (q :: ps'')) _
          hbl hbw hbc hbf (code_head_nonspace hbt)]
        rw [scanGo_skip_append sep2 (by decide) (by simp [sep2]; decide) _ _]
        rw [List.map_cons]
        rw [scannedBody_trim b.code hbt]
        rw [ih _ htext' hcode']
        have hb2 : blocks[o]? = some b := by
          rw [← List.get?_eq_getElem?]
          exact hb
        simp [codeOrders, hb, hb2]

/-- The header is empty or starts with a star. -/
theorem headerOf_head {b : CodeBlock} :
    headerOf b = [] ∨ (headerOf b).head? = some '*' := by
  unfold headerOf
  by_cases hc : (¬ (if b.filename.isEmpty then "File".toList else b.filename).isEmpty
      && (if b.filename.isEmpty then "File".toList else b.filename) ≠ "File".toList
      && (if b.filename.isEmpty then "File".toList else b.filename) ≠ idxTsName)
  · rw [if_pos hc]
    right
    rfl
  · rw [if_neg hc]
    left
    rfl

/-- A rendered part under the render conditions is never empty. -/
theorem renderPart_ne_nil {blocks : List CodeBlock} {p : Part} {isLast : Bool}
    (htext : ∀ s, p = Part.text s → s ≠ [])
    (hcode : ∀ o, p = Part.code o → ∃ b, blocks.get? o = some b) :
    renderPart blocks p isLast ≠ [] := by
  cases p with
  | text s =>
    have hs := htext s rfl
    cases s with
    | nil => exact absurd rfl hs
    | cons c s' => simp [renderPart]
  | code o =>
    obtain ⟨b, hb⟩ := hcode o rfl
    rw [renderPart_code_eq isLast hb]
    simp [ticks]

/-- The rendered parts list under the render conditions is never empty. -/
theorem renderLoop_ne_nil {blocks : List CodeBlock} {p : Part} {ps : List Part}
    (htext : ∀ s, Part.text s ∈ p :: ps → s ≠ [])
    (hcode : ∀ o, Part.code o ∈ p :: ps → ∃ b, blocks.get? o = some b) :
    renderLoop blocks (p :: ps) ≠ [] := by
  have hp : renderPart blocks p true ≠ [] ∧ renderPart blocks p false ≠ [] := by
    constructor <;>
      exact renderPart_ne_nil
        (fun s hs => htext s (by rw [← hs]; simp))
        (fun o ho => hcode o (by rw [← ho]; simp))
  cases ps with
  | nil => exact hp.1
  | cons q ps' =>
    show renderPart blocks p false ++ renderLoop blocks (q :: ps') ≠ []
    intro h
    rw [List.append_eq_nil] at h
    exact hp.2 h.1

/-- The head of a rendered part is not whitespace. -/
theorem renderPart_head {blocks : List CodeBlock} {p : Part} {isLast : Bool}
    (htext : ∀ s, p = Part.text s → jsTrim s = s ∧ s ≠ [])
    (hcode : ∀ o, p = Part.code o → ∃ b, blocks.get? o = some b) :
    ∀ c ∈ (renderPart blocks p isLast).head?, isJsSpace c = false := by
  cases p with
  | text s =>
    obtain ⟨htr, hne⟩ := htext s rfl
    intro c hc
    rw [show renderPart blocks (Part.text s) isLast
        = s ++ (if isLast then [] else sep2) from by simp [renderPart]] at hc
    rw [List.head?_append_of_ne_nil _ hne] at hc
    have h2 := jsTrim_head_false s
    rw [htr] at h2
    exact h2 c hc
  | code o =>
    obtain ⟨b, hb⟩ := hcode o rfl
    intro c hc
    rw [renderPart_code_eq isLast hb] at hc
    cases headerOf_head (b := b) with
    | inl hh =>
      rw [hh, List.nil_append] at hc
      rw [List.head?_append_of_ne_nil _ (by simp [ticks])] at hc
      rw [show (ticks ++ (b.language ++ '\n' :: (b.code ++ '\n' :: ticks))).head?
          = some btick from rfl] at hc
      have h2 : c = btick := by
        have := hc
        simp at this
        exact this.symm
      rw [h2]
      decide
    | inr hh =>
      rw [List.head?_append_of_ne_nil _ (by
        intro hnil
        rw [hnil] at hh
        simp at hh)] at hc
      rw [hh] at hc
      have h2 : c = '*' := by
        simp at hc
        exact hc.symm
      rw [h2]
      decide

/-- The head of the rendered explanation is not whitespace. -/
theorem renderLoop_head {blocks : List CodeBlock} {p : Part} {ps : List Part}
    (htext : ∀ s, Part.text s ∈ p :: ps → jsTrim s = s ∧ s ≠ [])
    (hcode : ∀ o, Part.code o ∈ p :: ps → ∃ b, blocks.get? o = some b) :
    ∀ c ∈ (renderLoop blocks (p :: ps)).head?, isJsSpace c = false := by
  have hp : ∀ isLast, ∀ c ∈ (renderPart blocks p isLast).head?, isJsSpace c = false := by
    intro isLast
    exact renderPart_head
      (fun s hs => htext s (by rw [← hs]; simp))
      (fun o ho => hcode o (by rw [← ho]; simp))
  cases ps with
  | nil => exact hp true
  | cons q ps' =>
    intro c hc
    rw [show renderLoop blocks (p :: q :: ps')
        = renderPart blocks p false ++ renderLoop blocks (q :: ps') from rfl] at hc
    rw [List.head?_append_of_ne_nil _ (renderPart_ne_nil
      (fun s hs => (htext s (by rw [← hs]; simp)).2)
      (fun o ho => hcode o (by rw [← ho]; simp)))] at hc
    exact hp false c hc

/-- The last character of a rendered last part is not whitespace. -/
theorem renderPart_last {blocks : List CodeBlock} {p : Part}
    (htext : ∀ s, p = Part.text s → jsTrim s = s ∧ s ≠ [])
    (hcode : ∀ o, p = Part.code o → ∃ b, blocks.get? o = some b) :
    ∀ c ∈ (renderPart blocks p true).getLast?, isJsSpace c = false := by
  cases p with
  | text s =>
    obtain ⟨htr, hne⟩ := htext s rfl
    intro c hc
    rw [show renderPart blocks (Part.text s) true = s ++ [] from by simp [renderPart]] at hc
    rw [List.append_nil] at hc
    have h2 := jsTrim_getLast_false s
    rw [htr] at h2
    exact h2 c hc
  | code o =>
    obtain ⟨b, hb⟩ := hcode o rfl
    intro c hc
    rw [renderPart_code_eq true hb] at hc
    rw [show (if true then ([] : List Char) else sep2) = [] from rfl] at hc
    rw [List.append_nil] at hc
    rw [List.getLast?_append_of_ne_nil _ (by simp [ticks])] at hc
    rw [List.getLast?_append_of_ne_nil _ (by simp)] at hc
    rw [List.getLast?_append_cons] at hc
    rw [show b.code ++ '\n' :: ticks = (b.code ++ ['\n']) ++ ticks from by simp] at hc
    rw [show ('\n' :: ((b.code ++ ['\n']) ++ ticks)) = ('\n' :: (b.code ++ ['\n'])) ++ ticks
      from by simp] at hc
    rw [List.getLast?_append_of_ne_nil _ (by simp [ticks])] at hc
    rw [show ticks.getLast? = some btick from by decide] at hc
    have h2 : c = btick := by
      simp at hc
      exact hc.symm
    rw [h2]
    decide

/-- The last character of the rendered explanation is not whitespace. -/
theorem renderLoop_last {blocks : List CodeBlock} :
    ∀ (ps : List Part) (p : Part),
    (∀ s, Part.text s ∈ p :: ps → jsTrim s = s ∧ s ≠ []) →
    (∀ o, Part.code o ∈ p :: ps → ∃ b, blocks.get? o = some b) →
    ∀ c ∈ (renderLoop blocks (p :: ps)).getLast?, isJsSpace c = false := by
  intro ps
  induction ps with
  | nil =>
    intro p htext hcode
    exact renderPart_last
      (fun s hs => htext s (by rw [← hs]; simp))
      (fun o ho => hcode o (by rw [← ho]; simp))
  | cons q ps' ih =>
    intro p htext hcode c hc
    rw [show renderLoop blocks (p :: q :: ps')
        = renderPart blocks p false ++ renderLoop blocks (q :: ps') from rfl] at hc
    rw [List.getLast?_append_of_ne_nil _ (renderLoop_ne_nil
      (fun s hs => (htext s (List.mem_cons_of_mem _ hs)).2)
      (fun o ho => hcode o (List.mem_cons_of_mem _ ho)))] at hc
    exact ih q (fun s hs => htext s (List.mem_cons_of_mem _ hs))
      (fun o ho => hcode o (List.mem_cons_of_mem _ ho)) c hc

/-- The codes of the block loop are the trimmed match bodies. -/
theorem blocksLoop_map_code (text : List Char) :
    ∀ (ms : List RawMatch) (ord : Nat),
      (blocksLoop text ms ord).map (fun b => b.code) = ms.map (fun m => jsTrim m.body) := by
  intro ms
  induction ms with
  | nil => intro ord; rfl
  | cons m ms ih =>
    intro ord
    show (mkBlock text m ord).code :: (blocksLoop text ms (ord + 1)).map (fun b => b.code) = _
    rw [ih (ord + 1)]
    rfl

/-- Every code the block loop produces is already trimmed. -/
theorem blocksLoop_code_trimmed (text : List Char) :
    ∀ (ms : List RawMatch) (ord : Nat), ∀ b ∈ blocksLoop text ms ord,
      jsTrim b.code = b.code := by
  intro ms
  induction ms with
  | nil => intro ord b hb; simp [blocksLoop] at hb
  | cons m ms ih =>
    intro ord b hb
    rw [show blocksLoop text (m :: ms) ord
        = mkBlock text m ord :: blocksLoop text ms (ord + 1) from rfl] at hb
    rw [List.mem_cons] at hb
    cases hb with
    | inl h =>
      rw [h]
      show jsTrim (jsTrim m.body) = jsTrim m.body
      exact jsTrim_idem _
    | inr h => exact ih (ord + 1) b h

/-- Reading a list back through `get?` along `range` is the identity. -/
theorem filterMap_range_get {α β : Type} (f : α → β) :
    ∀ (l : List α),
      (List.range l.length).filterMap (fun o => (l.get? o).map f) = l.map f := by
  intro l
  induction l with
  | nil => rfl
  | cons a l' ih =>
    rw [show (a :: l').length = l'.length + 1 from rfl, List.range_succ_eq_map]
    rw [List.filterMap_cons]
    rw [show ((a :: l').get? 0).map f = some (f a) from rfl]
    rw [List.filterMap_map]
    have hcomp : ((fun o => ((a :: l').get? o).map f) ∘ Nat.succ)
        = (fun o => (l'.get? o).map f) := by
      funext o
      rfl
    rw [hcomp, ih]
    rfl

/-- C9: on an input whose extracted blocks are well formed — marker-free
trimmed code that cannot be read as a filename attribute, marker-free
filenames, non-empty word languages — and whose prose segments are
marker-free (no stray fence fragments), re-running the extraction on the
reconstructed explanation yields the same number of artifacts with
byte-identical code contents. -/
theorem c9_roundtrip (text : List Char)
    (hms : scanFences text ≠ [])
    (hgood : ∀ b ∈ extractCodeBlocks text,
      hasTicks b.code = false ∧ fnameLit.isPrefixOf b.code = false
        ∧ hasTicks b.filename = false ∧ b.language ≠ []
        ∧ b.language.all isWordChar = true)
    (hparts : ∀ s, Part.text s ∈ partsLoop text (extractCodeBlocks text).length
        (scanFences text) 0 0 → hasTicks s = false) :
    (extractCodeBlocks (preserveOrderedContent text (extractCodeBlocks text))).map
        (fun b => b.code)
      = (extractCodeBlocks text).map (fun b => b.code) := by
  have heq := extractCodeBlocks_eq_loop text hms
  have hlen : (extractCodeBlocks text).length = (scanFences text).length := by
    rw [heq, blocksLoop_length]
  have htrimmed : ∀ b ∈ extractCodeBlocks text, jsTrim b.code = b.code := by
    intro b hb
    rw [heq] at hb
    exact blocksLoop_code_trimmed text _ 0 b hb
  have hblocks_ne : extractCodeBlocks text ≠ [] := by
    rw [heq]
    cases hsc : scanFences text with
    | nil => exact absurd hsc hms
    | cons m ms => simp [blocksLoop]
  -- the parts and their conditions
  have htextC : ∀ s, Part.text s ∈ partsLoop text (extractCodeBlocks text).length
      (scanFences text) 0 0 → jsTrim s = s ∧ s ≠ [] :=
    fun s hs => partsLoop_text_inv text _ _ _ _ s hs
  have hcodeC : ∀ o, Part.code o ∈ partsLoop text (extractCodeBlocks text).length
      (scanFences text) 0 0 → ∃ b, (extractCodeBlocks text).get? o = some b ∧ goodB b := by
    intro o ho
    have hlt : o < (extractCodeBlocks text).length :=
      partsLoop_code_inv text _ _ _ _ o ho
    refine ⟨(extractCodeBlocks text).get ⟨o, hlt⟩, List.get?_eq_get hlt, ?_⟩
    have hmem : (extractCodeBlocks text).get ⟨o, hlt⟩ ∈ extractCodeBlocks text :=
      List.get_mem _ _ _
    obtain ⟨h1, h2, h3, h4, h5⟩ := hgood _ hmem
    exact ⟨h1, h2, htrimmed _ hmem, h3, h4, h5⟩
  -- the parts list is non-empty
  have hco : codeOrders (partsLoop text (extractCodeBlocks text).length
      (scanFences text) 0 0) = List.range (extractCodeBlocks text).length := by
    rw [partsLoop_codeOrders]
    rw [List.range_eq_range']
    congr 1
    rw [hlen]
    omega
  obtain ⟨p0, ps0, hps⟩ : ∃ p0 ps0, partsLoop text (extractCodeBlocks text).length
      (scanFences text) 0 0 = p0 :: ps0 := by
    cases hp : partsLoop text (extractCodeBlocks text).length (scanFences text) 0 0 with
    | nil =>
      rw [hp] at hco
      have : (List.range (extractCodeBlocks text).length).length = 0 := by
        rw [← hco]
        rfl
      rw [List.length_range] at this
      exact absurd (List.length_eq_zero.mp this) hblocks_ne
    | cons a l => exact ⟨a, l, rfl⟩
  -- the explanation is the untrimmed render
  have hexp : preserveOrderedContent text (extractCodeBlocks text)
      = renderLoop (extractCodeBlocks text)
          (partsLoop text (extractCodeBlocks text).length (scanFences text) 0 0) := by
    unfold preserveOrderedContent explFromScan
    rw [if_neg (by
      intro hie
      rw [List.isEmpty_iff] at hie
      exact hblocks_ne hie)]
    rw [hps]
    refine jsTrim_eq_self _ ?_ ?_
    · exact renderLoop_head (fun s hs => htextC s (hps ▸ hs))
        (fun o ho => ⟨(hcodeC o (hps ▸ ho)).choose, (hcodeC o (hps ▸ ho)).choose_spec.1⟩)
    · exact renderLoop_last ps0 p0 (fun s hs => htextC s (hps ▸ hs))
        (fun o ho => ⟨(hcodeC o (hps ▸ ho)).choose, (hcodeC o (hps ▸ ho)).choose_spec.1⟩)
  -- scanning the explanation
  have hscan2 : (scanFences (preserveOrderedContent text (extractCodeBlocks text))).map
      (fun m => jsTrim m.body) = (extractCodeBlocks text).map (fun b => b.code) := by
    rw [hexp]
    show (scanGo (renderLoop (extractCodeBlocks text) _) 0 0).map (fun m => jsTrim m.body) = _
    rw [scanGo_render (extractCodeBlocks text) _ 0
      (fun s hs => ⟨hparts s hs, htextC s hs⟩) hcodeC]
    rw [hco]
    exact filterMap_range_get _ (extractCodeBlocks text)
  have hne2 : scanFences (preserveOrderedContent text (extractCodeBlocks text)) ≠ [] := by
    intro h
    rw [h] at hscan2
    have : extractCodeBlocks text = [] := by
      have hlen2 : ((extractCodeBlocks text).map (fun b => b.code)).length = 0 := by
        rw [← hscan2]
        rfl
      rw [List.length_map] at hlen2
      exact List.length_eq_zero.mp hlen2
    exact hblocks_ne this
  rw [extractCodeBlocks_eq_loop _ hne2, blocksLoop_map_code]
  exact hscan2

/-- Witness for C9 at a concrete prose-fence-prose input. -/
theorem c9_roundtrip_witness :
    scanFences ("Intro text\n```ts\nlet a = 1\n```\nDone".toList) ≠ []
    ∧ (extractCodeBlocks (preserveOrderedContent ("Intro text\n```ts\nlet a = 1\n```\nDone".toList)
        (extractCodeBlocks ("Intro text\n```ts\nlet a = 1\n```\nDone".toList)))).map
          (fun b => b.code)
      = (extractCodeBlocks ("Intro text\n```ts\nlet a = 1\n```\nDone".toList)).map
          (fun b => b.code) :=
  ⟨by decide,
   c9_roundtrip ("Intro text\n```ts\nlet a = 1\n```\nDone".toList) (by decide) (by decide)
     (by
      intro s hs
      rw [show partsLoop ("Intro text\n```ts\nlet a = 1\n```\nDone".toList)
          (extractCodeBlocks ("Intro text\n```ts\nlet a = 1\n```\nDone".toList)).length
          (scanFences ("Intro text\n```ts\nlet a = 1\n```\nDone".toList)) 0 0
        = [Part.text ("Intro text".toList), Part.code 0, Part.text ("Done".toList)]
        from by decide] at hs
      simp at hs
      rcases hs with h | h
      · rw [h]; decide
      · rw [h]; decide)⟩

end CfAi
